import Mathlib

/-!
# Config: path resolution, typed accessors and the settings overlay

A shallow embedding of `flight/Config.cpp`.  The C++ class keeps a Lua 5.1 state `L`
(global table plus the C API stack) and an ordered map `mSettings`.  The Lua C API calls
the methods make are modelled from the Lua 5.1 reference manual on a value tree; the
methods themselves are transcribed statement by statement.

Conventions of the embedding:
* a `std::string` / C string is a `List Char`;
* a Lua number is an integer-valued `lua_Number` (fractional numbers are floating point
  and are not represented);
* C `int` results are `Int`s reduced with `toInt32`;
* the Lua stack is a list whose head is index `-1`; its capacity (`LUA_MINSTACK`) is not
  modelled;
* behaviour the C or Lua standards leave undefined, and unprotected Lua errors (which
  end the process through the panic handler), are `Outcome.fault`.
-/

namespace Config

/-- A byte string (`std::string`, `const char*`). -/
abbrev Str := List Char

/-- Keys of a Lua table that configuration documents use: integers and strings. -/
inductive Key where
  | int (i : Int)
  | str (s : Str)
  deriving DecidableEq, Repr

/-- Lua values.  A table is the list of its entries, in the order `lua_next` visits
them; `function` stands for any function value (an opaque identity). -/
inductive Value where
  | nil
  | boolean (b : Bool)
  | number (n : Int)
  | string (s : Str)
  | table (entries : List (Key × Value))
  | function (id : Nat)

/-- The entries of a table. -/
abbrev Table := List (Key × Value)

/-- Raw table read `t[k]`: the value of the first entry under `k`, `nil` when absent. -/
def Table.get : Table → Key → Value
  | [], _ => Value.nil
  | (k', v) :: rest, k => if k' = k then v else Table.get rest k

/-- The test `lua_type( L, idx ) == LUA_TNIL`. -/
def Value.isNil : Value → Bool
  | Value.nil => true
  | _ => false

/-- The Lua state the class owns: the global table, the `__index` table of the string
metatable that `luaL_openlibs` installs (the `string` library), and the C API stack. -/
structure LuaState where
  globals : Table
  strlib : Table
  stack : List Value

/-- Ways a call can end without returning. -/
inductive Fault where
  /-- An unprotected Lua error: the panic handler runs and the process exits. -/
  | luaPanic
  /-- A stack index that names no slot, or a table operation on a non-table slot. -/
  | badIndex
  /-- A write past `char tmp[128]`. -/
  | tmpOverflow
  /-- A `std::string` built from a null pointer. -/
  | nullString
  /-- A loop that never ends. -/
  | diverges
  deriving DecidableEq, Repr

/-- Result of a method: the returned value with the Lua state left behind, or a fault. -/
inductive Outcome (α : Type) where
  | ok (ret : α) (L : LuaState)
  | fault (f : Fault)

/-- Conversion to C `int` (32 bits, two's complement). -/
def toInt32 (n : Int) : Int := (n + 2147483648) % 4294967296 - 2147483648

/-- The bytes `c_str()` exposes to C code: everything before the first NUL. -/
def c_str (s : Str) : Str := s.takeWhile (fun c => c ≠ Char.ofNat 0)

/-- Library call `strchr(s, c) != nullptr`. -/
def strchr (s : Str) (c : Char) : Bool := s.contains c

/-- Decimal digit test `c >= '0' and c <= '9'`. -/
def isDigit (c : Char) : Bool := decide ('0' ≤ c) && decide (c ≤ '9')

/-- Value of the leading decimal digits of `s`, continuing from `acc`. -/
def leadingDigits : Str → Nat → Nat
  | [], acc => acc
  | c :: cs, acc => if isDigit c then leadingDigits cs (acc * 10 + (c.toNat - 48)) else acc

/-- Library call `atoi` on a token that starts with a digit: `strtol` in base 10,
saturated at `LONG_MAX` (64-bit `long`), then converted to `int`. -/
def atoi (s : Str) : Int :=
  toInt32 (Int.ofNat (min (leadingDigits s 0) 9223372036854775807))

/-- API call `lua_getfield` on a value: a raw read for a table, the string library for a
string (through the string metatable), and the error "attempt to index" otherwise. -/
def lua_getfield (L : LuaState) (v : Value) (k : Str) : Except Fault Value :=
  match v with
  | Value.table t => Except.ok (Table.get t (Key.str k))
  | Value.string _ => Except.ok (Table.get L.strlib (Key.str k))
  | _ => Except.error Fault.luaPanic

/-- The loop of `LocateValue` over the remaining characters of `name`, with the token
buffer `tmp` (its first `j` bytes, so `strlen(tmp)` is the length of the list), the token
counter `k` and the flag `in_table`, followed by the trailing-token lookup. -/
def locateLoop : Str → Str → Nat → Bool → LuaState → Outcome Int
  | [], tmp, _, _, L =>
    -- after the loop: tmp[j] = 0; if ( tmp[0] != 0 ) lua_getfield( L, -1, tmp )
    if 128 ≤ tmp.length then Outcome.fault Fault.tmpOverflow
    else if tmp = [] then Outcome.ok 0 L
    else
      match L.stack with
      | [] => Outcome.fault Fault.badIndex
      | top :: _ =>
        match lua_getfield L top tmp with
        | Except.error f => Outcome.fault f
        | Except.ok v =>
          if v.isNil then Outcome.ok (-1) { L with stack := v :: L.stack }
          else Outcome.ok 0 { L with stack := v :: L.stack }
  | c :: cs, tmp, k, in_table, L =>
    if c = '.' ∨ c = '[' ∨ c = ']' then
      -- tmp[j] = 0
      if 128 ≤ tmp.length then Outcome.fault Fault.tmpOverflow
      -- strlen(tmp) == 0: j = 0; k++; continue
      else if tmp = [] then locateLoop cs [] (k + 1) in_table L
      else
        -- if ( name[i] == '[' ) in_table = true
        let in_table' := in_table || decide (c = '[')
        let pushed : Except Fault Value :=
          if in_table' && decide (c = ']') then
            -- lua_istable( L, -1 )
            match L.stack with
            | [] => Except.error Fault.badIndex
            | top :: _ =>
              match top with
              | Value.table t =>
                -- tmp[0] is a digit: lua_rawgeti( L, -1, atoi(tmp) ), else lua_getfield
                if isDigit (tmp.headD ' ') then Except.ok (Table.get t (Key.int (atoi tmp)))
                else Except.ok (Table.get t (Key.str tmp))
              | _ =>
                if k = 0 then Except.ok (Table.get L.globals (Key.str tmp))
                else lua_getfield L top tmp
          else if k = 0 then Except.ok (Table.get L.globals (Key.str tmp))
          else
            match L.stack with
            | [] => Except.error Fault.badIndex
            | top :: _ => lua_getfield L top tmp
        match pushed with
        | Except.error f => Outcome.fault f
        | Except.ok v =>
          -- lua_type( L, -1 ) == LUA_TNIL: return -1; else memset, j = 0, k++
          if v.isNil then Outcome.ok (-1) { L with stack := v :: L.stack }
          else locateLoop cs [] (k + 1) in_table' { L with stack := v :: L.stack }
    -- tmp[j] = name[i]; j++
    else if 128 ≤ tmp.length then Outcome.fault Fault.tmpOverflow
    else locateLoop cs (tmp ++ [c]) k in_table L

/-- Method `Config::LocateValue`: `0` with the value pushed, or `-1`. -/
def LocateValue (L : LuaState) (_name : Str) : Outcome Int :=
  let name := c_str _name
  if !strchr name '.' && !strchr name '[' then
    let v := Table.get L.globals (Key.str name)
    if v.isNil then Outcome.ok (-1) { L with stack := v :: L.stack }
    else Outcome.ok 0 { L with stack := v :: L.stack }
  else locateLoop name [] 0 false L

/-- Formatting `lua_number2str` (`"%.14g"`) trailing-zero removal. -/
def dropTrailingZeros (s : Str) : Str := (s.reverse.dropWhile (fun c => c = '0')).reverse

/-- Formatting `lua_number2str`, `sprintf` with `"%.14g"`, of an integer-valued number:
plain decimal up to 14 digits, otherwise 14 significant digits (ties to even) in
exponent form. -/
def lua_number2str (n : Int) : Str :=
  let m := n.natAbs
  let sign : Str := if n < 0 then ['-'] else []
  let ds := Nat.toDigits 10 m
  if ds.length ≤ 14 then sign ++ ds
  else
    let q := 10 ^ (ds.length - 14)
    let hi := m / q
    let lo := m % q
    let up := decide (q < 2 * lo) || (decide (2 * lo = q) && decide (hi % 2 = 1))
    let hi1 := if up then hi + 1 else hi
    let carry := decide (hi1 = 10 ^ 14)
    let mant := if carry then 10 ^ 13 else hi1
    let e := if carry then ds.length else ds.length - 1
    let md := dropTrailingZeros (Nat.toDigits 10 mant)
    let es := Nat.toDigits 10 e
    sign ++ md.take 1 ++ (if md.length ≤ 1 then [] else '.' :: md.drop 1)
      ++ ['e', '+'] ++ (if es.length < 2 then '0' :: es else es)

/-- API call `lua_tolstring(L, idx, nullptr)` on a slot: the string and the slot's new
content (a number is converted to a string in place), or a null pointer. -/
def lua_tolstring (v : Value) : Option (Str × Value) :=
  match v with
  | Value.string s => some (s, Value.string s)
  | Value.number n => some (lua_number2str n, Value.string (lua_number2str n))
  | _ => none

/-- API call `lua_tointeger` followed by the conversion to `int`.  `str2int` is the Lua
runtime's string-to-number coercion (`luaO_str2d` and the cast), `0` for a string that
is not a numeral. -/
def lua_tointeger (str2int : Str → Int) (v : Value) : Int :=
  match v with
  | Value.number n => toInt32 n
  | Value.string s => toInt32 (str2int s)
  | _ => 0

/-- API call `lua_toboolean`: false for `nil` and `false`, true otherwise. -/
def lua_toboolean (v : Value) : Bool :=
  match v with
  | Value.nil => false
  | Value.boolean b => b
  | _ => true

/-- Method `Config::string`. -/
def string (L : LuaState) (name : Str) (default : Str) : Outcome Str :=
  match LocateValue L name with
  | Outcome.fault f => Outcome.fault f
  | Outcome.ok r L1 =>
    if r < 0 then Outcome.ok default L1
    else
      match L1.stack with
      | [] => Outcome.fault Fault.badIndex
      | top :: rest =>
        match lua_tolstring top with
        | none => Outcome.fault Fault.nullString
        | some (s, top') => Outcome.ok (c_str s) { L1 with stack := top' :: rest }

/-- Method `Config::integer`. -/
def integer (str2int : Str → Int) (L : LuaState) (name : Str) (default : Int) :
    Outcome Int :=
  match LocateValue L name with
  | Outcome.fault f => Outcome.fault f
  | Outcome.ok r L1 =>
    if r < 0 then Outcome.ok default L1
    else
      match L1.stack with
      | [] => Outcome.fault Fault.badIndex
      | top :: _ => Outcome.ok (lua_tointeger str2int top) L1

/-- Method `Config::number`.  The result type `float` is the parameter `F`, and
`tonumber` is `lua_tonumber` followed by the conversion to `float`. -/
def number {F : Type} (tonumber : Value → F) (L : LuaState) (name : Str) (default : F) :
    Outcome F :=
  match LocateValue L name with
  | Outcome.fault f => Outcome.fault f
  | Outcome.ok r L1 =>
    if r < 0 then Outcome.ok default L1
    else
      match L1.stack with
      | [] => Outcome.fault Fault.badIndex
      | top :: _ => Outcome.ok (tonumber top) L1

/-- Method `Config::boolean`. -/
def boolean (L : LuaState) (name : Str) (default : Bool) : Outcome Bool :=
  match LocateValue L name with
  | Outcome.fault f => Outcome.fault f
  | Outcome.ok r L1 =>
    if r < 0 then Outcome.ok default L1
    else
      match L1.stack with
      | [] => Outcome.fault Fault.badIndex
      | top :: _ => Outcome.ok (lua_toboolean top) L1

/-- A border of a table: an index `n` with `t[n]` not nil (or `n = 0`) and `t[n+1]` nil.
The Lua manual defines the length of a table as any of its borders. -/
def IsBorder (t : Table) (n : Nat) : Prop :=
  (n = 0 ∨ (Table.get t (Key.int (Int.ofNat n))).isNil = false) ∧
    (Table.get t (Key.int (Int.ofNat n + 1))).isNil = true

/-- API call `lua_objlen` on a slot: the length and the slot's new content.  `objlen` is
the table length operator of the Lua runtime; a number is converted to a string in
place. -/
def lua_objlen (objlen : Table → Nat) (v : Value) : Nat × Value :=
  match v with
  | Value.table t => (objlen t, v)
  | Value.string s => (s.length, v)
  | Value.number n => ((lua_number2str n).length, Value.string (lua_number2str n))
  | _ => (0, v)

/-- Method `Config::integerArray`. -/
def integerArray (objlen : Table → Nat) (str2int : Str → Int) (L : LuaState) (name : Str) :
    Outcome (List Int) :=
  match LocateValue L name with
  | Outcome.fault f => Outcome.fault f
  | Outcome.ok r L1 =>
    if r < 0 then Outcome.ok [] L1
    else
      match L1.stack with
      | [] => Outcome.fault Fault.badIndex
      | top :: rest =>
        let len := (lua_objlen objlen top).1
        if 0 < len then
          match (lua_objlen objlen top).2 with
          | Value.table t =>
            Outcome.ok
              ((List.range' 1 len).map (fun i =>
                lua_tointeger str2int (Table.get t (Key.int (toInt32 (Int.ofNat i))))))
              { L1 with stack := rest }
          | _ => Outcome.fault Fault.badIndex
        else Outcome.ok [] { L1 with stack := rest }

/-- The key a stack slot denotes, if it is a number or a string. -/
def Value.toKey : Value → Option Key
  | Value.number n => some (Key.int n)
  | Value.string s => some (Key.str s)
  | _ => none

/-- The value `lua_next` pushes for a key. -/
def Key.toValue : Key → Value
  | Key.int n => Value.number n
  | Key.str s => Value.string s

/-- The entries that follow the first entry under `k`, if `k` is a key of the table. -/
def Table.after : Table → Key → Option Table
  | [], _ => none
  | (k', _) :: rest, k => if k' = k then some rest else Table.after rest k

/-- API call `lua_next` on a table and the key slot: the next entry, `none` at the end,
or the error "invalid key to 'next'". -/
def lua_next (t : Table) (key : Value) : Except Fault (Option (Key × Value)) :=
  match key with
  | Value.nil => Except.ok t.head?
  | _ =>
    match key.toKey with
    | none => Except.error Fault.luaPanic
    | some k =>
      match Table.after t k with
      | none => Except.error Fault.luaPanic
      | some rest => Except.ok rest.head?

/-- The loop `while( lua_next( L, -2 ) != 0 ) { ret++; lua_pop( L, 1 ); }` of
`ArrayLength`, from the key slot `key` and the count `ret`. -/
def countLoop (t : Table) : Nat → Value → Int → Except Fault Int
  | 0, _, _ => Except.error Fault.diverges
  | fuel + 1, key, ret =>
    match lua_next t key with
    | Except.error f => Except.error f
    | Except.ok none => Except.ok ret
    | Except.ok (some (k, _)) => countLoop t fuel k.toValue (toInt32 (ret + 1))

/-- Method `Config::ArrayLength`. -/
def ArrayLength (objlen : Table → Nat) (L : LuaState) (name : Str) : Outcome Int :=
  match LocateValue L name with
  | Outcome.fault f => Outcome.fault f
  | Outcome.ok r L1 =>
    if r < 0 then Outcome.ok (-1) L1
    else
      match L1.stack with
      | [] => Outcome.fault Fault.badIndex
      | Value.table t :: _ =>
        let len := objlen t
        if 0 < len then Outcome.ok (toInt32 (Int.ofNat len)) L1
        else
          match countLoop t (t.length + 1) Value.nil 0 with
          | Except.error f => Outcome.fault f
          | Except.ok ret => Outcome.ok ret L1
      | _ :: _ => Outcome.ok (-1) L1

/-! ## The settings overlay -/

/-- The overlay `mSettings`, a `std::map<std::string, std::string>`: its entries in
iteration order (ascending keys). -/
abbrev Settings := List (Str × Str)

/-- Ordering of `std::string` keys: lexicographic on the bytes. -/
def strLt : Str → Str → Bool
  | [], [] => false
  | [], _ :: _ => true
  | _ :: _, [] => false
  | a :: as, b :: bs => if a.toNat < b.toNat then true else if b.toNat < a.toNat then false
      else strLt as bs

/-- Map lookup: the value of the first entry under `k`. -/
def Settings.find : Settings → Str → Option Str
  | [], _ => none
  | (k', v) :: rest, k => if k' = k then some v else Settings.find rest k

/-- Map assignment `m[k] = v`: replaces the value of an existing key, otherwise inserts
before the first greater key. -/
def Settings.set : Settings → Str → Str → Settings
  | [], k, v => [(k, v)]
  | (k', v') :: rest, k, v =>
    if k' = k then (k, v) :: rest
    else if strLt k k' then (k, v) :: (k', v') :: rest
    else (k', v') :: Settings.set rest k v

/-- The invariant of a `std::map`: keys strictly ascending. -/
def Settings.Ordered : Settings → Prop
  | [] => True
  | [_] => True
  | (k, _) :: (k', v') :: rest => strLt k k' = true ∧ Settings.Ordered ((k', v') :: rest)

/-- Index of the first character of `s` that satisfies `p`, counting from `i`. -/
def firstIndex (p : Char → Bool) : Str → Nat → Option Nat
  | [], _ => none
  | c :: cs, i => if p c then some i else firstIndex p cs (i + 1)

/-- Index of the last character of `s` that satisfies `p`, counting from `i`; `acc` is
the answer so far. -/
def lastIndex (p : Char → Bool) : Str → Nat → Option Nat → Option Nat
  | [], _, acc => acc
  | c :: cs, i, acc => lastIndex p cs (i + 1) (if p c then some i else acc)

/-- Member `std::string::find` for a one-character pattern: the index of the first
occurrence; `none` is `std::string::npos`. -/
def find (s : Str) (c : Char) : Option Nat := firstIndex (fun x => x == c) s 0

/-- The sum `pos + 1` on `size_t`: `npos + 1` wraps around to `0`. -/
def sizeSucc : Option Nat → Nat
  | none => 0
  | some i => i + 1

/-- Member `std::string::substr(pos, n)`, with `n = npos` (`none`) meaning up to the end;
every call site has `pos` within the string. -/
def substr (s : Str) (pos : Nat) (n : Option Nat) : Str :=
  match n with
  | none => s.drop pos
  | some n => (s.drop pos).take n

/-- Member `find_first_not_of`: index of the first character outside `t`, or `npos`. -/
def find_first_not_of (s t : Str) : Option Nat := firstIndex (fun x => !t.contains x) s 0

/-- Member `find_last_not_of`: index of the last character outside `t`, or `npos`. -/
def find_last_not_of (s t : Str) : Option Nat :=
  lastIndex (fun x => !t.contains x) s 0 none

/-- Default trim set `" \t\n\r\f\v"`. -/
def whitespace : Str := [' ', '\t', '\n', '\r', Char.ofNat 12, Char.ofNat 11]

/-- Helper `ltrim`: `s.erase(0, s.find_first_not_of(t))`. -/
def ltrim (s : Str) (t : Str) : Str :=
  match find_first_not_of s t with
  | none => []
  | some n => s.drop n

/-- Helper `rtrim`: `s.erase(s.find_last_not_of(t) + 1)`. -/
def rtrim (s : Str) (t : Str) : Str := s.take (sizeSucc (find_last_not_of s t))

/-- Helper `trim`: `ltrim(rtrim(s, t), t)`. -/
def trim (s : Str) (t : Str) : Str := ltrim (rtrim s t) t

/-- Lines as `std::getline` delivers them: pieces ended by a newline, and a last piece
without one when it is not empty. -/
def getlines : Str → Str → List Str
  | [], cur => if cur = [] then [] else [cur]
  | c :: cs, cur => if c = '\n' then cur :: getlines cs [] else getlines cs (cur ++ [c])

/-- Body of the settings loop of `Reload` for one line. -/
def settingsLine (m : Settings) (line : Str) : Settings :=
  let key := substr line 0 (find line '=')
  let value := substr line (sizeSucc (find line '=')) none
  Settings.set m (trim key whitespace) (trim value whitespace)

/-- The settings loop of `Reload` over the text of the settings file. -/
def reloadSettings (m : Settings) (text : Str) : Settings :=
  (getlines text []).foldl settingsLine m

/-- Method `Config::Save`: the bytes written to the settings file. -/
def Save (m : Settings) : Str :=
  m.flatMap (fun setting => setting.1 ++ [' ', '=', ' '] ++ setting.2 ++ ['\n'])

/-- Library call `std::to_string(int)`. -/
def to_string (v : Int) : Str :=
  if v < 0 then '-' :: Nat.toDigits 10 v.natAbs else Nat.toDigits 10 v.natAbs

/-! ## Setters

The setters run a Lua chunk `name=value`.  The chunk evaluator is part of the Lua
runtime; `luaL_dostring` below follows the Lua 5.1 manual for the chunks made of one
assignment of a literal or a global variable to a global variable, and reports any other
chunk as outside the model. -/

/-- Lexer class of the first character of a Lua name. -/
def isNameStart (c : Char) : Bool :=
  (decide ('a' ≤ c) && decide (c ≤ 'z')) || (decide ('A' ≤ c) && decide (c ≤ 'Z')) ||
    decide (c = '_')

/-- Lexer class of the later characters of a Lua name. -/
def isNameChar (c : Char) : Bool := isNameStart c || isDigit c

/-- The reserved words of Lua 5.1. -/
def reservedWords : List Str :=
  ["and".data, "break".data, "do".data, "else".data, "elseif".data, "end".data,
   "false".data, "for".data, "function".data, "if".data, "in".data, "local".data,
   "nil".data, "not".data, "or".data, "repeat".data, "return".data, "then".data,
   "true".data, "until".data, "while".data]

/-- A Lua name: letters, digits and underscores, not starting with a digit and not a
reserved word. -/
def isLuaName (s : Str) : Bool :=
  match s with
  | [] => false
  | c :: cs => isNameStart c && cs.all isNameChar && !reservedWords.contains s

/-- A decimal numeral short enough to be an exact `lua_Number`. -/
def isNumeral (s : Str) : Bool := !s.isEmpty && s.all isDigit && decide (s.length ≤ 15)

/-- The body of a double-quoted string literal without escapes, if `s` is one. -/
def stringLiteral (s : Str) : Option Str :=
  match s with
  | '"' :: rest =>
    if rest.getLast? = some '"' &&
        rest.dropLast.all (fun c => c != '"' && c != '\\' && c != '\n') then
      some rest.dropLast
    else none
  | _ => none

/-- Value of an expression of the modelled fragment in the state `L`. -/
def luaExp (L : LuaState) (e : Str) : Option Value :=
  if e = "nil".data then some Value.nil
  else if e = "true".data then some (Value.boolean true)
  else if e = "false".data then some (Value.boolean false)
  else if isLuaName e then some (Table.get L.globals (Key.str e))
  else if isNumeral e then some (Value.number (Int.ofNat (leadingDigits e 0)))
  else
    match e with
    | '-' :: ds =>
      if isNumeral ds && decide (leadingDigits ds 0 ≠ 0) then
        some (Value.number (-Int.ofNat (leadingDigits ds 0)))
      else none
    | _ => (stringLiteral e).map Value.string

/-- Table write `t[k] = v`: assigning `nil` removes the entry; a new key is added at the
end. -/
def Table.put : Table → Key → Value → Table
  | [], k, v => if v.isNil then [] else [(k, v)]
  | (k', v') :: rest, k, v =>
    if k' = k then (if v.isNil then rest else (k, v) :: rest)
    else (k', v') :: Table.put rest k v

/-- Library call `luaL_dostring` on a chunk `Name = Exp` of the modelled fragment:
the global is assigned and the stack is left as it was.  `none` for any other chunk. -/
def luaL_dostring (L : LuaState) (chunk : Str) : Option LuaState :=
  if (find chunk '=').isNone then none
  else
    let lhs := trim (substr chunk 0 (find chunk '=')) whitespace
    let rhs := trim (substr chunk (sizeSucc (find chunk '=')) none) whitespace
    if isLuaName lhs then
      match luaExp L rhs with
      | some v => some { L with globals := Table.put L.globals (Key.str lhs) v }
      | none => none
    else none

/-- The members of the class the setters touch: the overlay and the Lua state.  `L` is
`none` once a chunk outside the modelled fragment has run. -/
structure Instance where
  mSettings : Settings
  L : Option LuaState

/-- Method `Config::setBoolean`. -/
def setBoolean (c : Instance) (name : Str) (v : Bool) : Instance :=
  let m := Settings.set c.mSettings name (if v then "true".data else "false".data)
  { mSettings := m,
    L := c.L.bind (fun L =>
      luaL_dostring L (c_str (name ++ ['='] ++ (m.find name).getD []))) }

/-- Method `Config::setInteger`. -/
def setInteger (c : Instance) (name : Str) (v : Int) : Instance :=
  let m := Settings.set c.mSettings name (to_string v)
  { mSettings := m,
    L := c.L.bind (fun L =>
      luaL_dostring L (c_str (name ++ ['='] ++ (m.find name).getD []))) }

/-- Method `Config::setNumber`; `to_string_float` is `std::to_string(float)`. -/
def setNumber {F : Type} (to_string_float : F → Str) (c : Instance) (name : Str) (v : F) :
    Instance :=
  let m := Settings.set c.mSettings name (to_string_float v)
  { mSettings := m,
    L := c.L.bind (fun L =>
      luaL_dostring L (c_str (name ++ ['='] ++ (m.find name).getD []))) }

/-- Method `Config::setString`. -/
def setString (c : Instance) (name : Str) (v : Str) : Instance :=
  { mSettings := Settings.set c.mSettings name v,
    L := c.L.bind (fun L => luaL_dostring L (c_str (name ++ ['='] ++ v))) }

/-! ## Apply -/

/-- The three sensor collections. -/
inductive SensorKind where
  | accelerometer
  | gyroscope
  | magnetometer
  deriving DecidableEq, Repr

/-- A call `setAxisSwap( swap )` on the device of a kind registered under a name. -/
structure AxisSwapCall where
  kind : SensorKind
  name : Str
  swap : List Int
  deriving DecidableEq, Repr

/-- The key-collecting loop of `Apply`:
`while ( lua_next( L, -2 ) ) { list.emplace_back( lua_tolstring( L, -2, nullptr ) ); lua_pop( L, 1 ); }`
from the key slot `key`.  `lua_tolstring` rewrites a number key in place. -/
def keysLoop (t : Table) : Nat → Value → List Str → Except Fault (List Str)
  | 0, _, _ => Except.error Fault.diverges
  | fuel + 1, key, acc =>
    match lua_next t key with
    | Except.error f => Except.error f
    | Except.ok none => Except.ok acc
    | Except.ok (some (k, _)) =>
      match lua_tolstring k.toValue with
      | none => Except.error Fault.nullString
      | some (s, slot) => keysLoop t fuel slot (acc ++ [c_str s])

/-- The keys of a global collection as `Apply` gathers them (`lua_getglobal`, the loop,
`lua_pop`). -/
def collectionKeys (L : LuaState) (name : Str) : Except Fault (List Str) :=
  match Table.get L.globals (Key.str name) with
  | Value.table t => keysLoop t (t.length + 1) Value.nil []
  | _ => Except.error Fault.badIndex

/-- One of the three device loops of `Apply` over the gathered keys.  `registry kind it`
tells whether `Sensor::gyroscope( it )` (or its sibling) returns a device. -/
def applyLoop (registry : SensorKind → Str → Bool) (str2int : Str → Int) (kind : SensorKind)
    (collection : Str) : List Str → LuaState → List AxisSwapCall →
    Outcome (List AxisSwapCall)
  | [], L, calls => Outcome.ok calls L
  | it :: rest, L, calls =>
    if registry kind it then
      match integer str2int L (collection ++ ['.'] ++ it ++ ".axis_swap.x".data) 0 with
      | Outcome.fault f => Outcome.fault f
      | Outcome.ok x L1 =>
        match integer str2int L1 (collection ++ ['.'] ++ it ++ ".axis_swap.y".data) 0 with
        | Outcome.fault f => Outcome.fault f
        | Outcome.ok y L2 =>
          match integer str2int L2 (collection ++ ['.'] ++ it ++ ".axis_swap.z".data) 0 with
          | Outcome.fault f => Outcome.fault f
          | Outcome.ok z L3 =>
            applyLoop registry str2int kind collection rest L3
              (calls ++ [{ kind := kind, name := it, swap := [x, y, z, 0] }])
    else applyLoop registry str2int kind collection rest L calls

/-- Method `Config::Apply`: the `setAxisSwap` calls it issues, in order. -/
def Apply (registry : SensorKind → Str → Bool) (str2int : Str → Int) (L : LuaState) :
    Outcome (List AxisSwapCall) :=
  match collectionKeys L "accelerometers".data with
  | Except.error f => Outcome.fault f
  | Except.ok accelerometers =>
    match collectionKeys L "gyroscopes".data with
    | Except.error f => Outcome.fault f
    | Except.ok gyroscopes =>
      match collectionKeys L "magnetometers".data with
      | Except.error f => Outcome.fault f
      | Except.ok magnetometers =>
        match applyLoop registry str2int SensorKind.gyroscope "gyroscopes".data
            gyroscopes L [] with
        | Outcome.fault f => Outcome.fault f
        | Outcome.ok calls1 L1 =>
          match applyLoop registry str2int SensorKind.accelerometer "accelerometers".data
              accelerometers L1 calls1 with
          | Outcome.fault f => Outcome.fault f
          | Outcome.ok calls2 L2 =>
            applyLoop registry str2int SensorKind.magnetometer "magnetometers".data
              magnetometers L2 calls2

/-! ## Paths of names and their reference semantics -/

/-- A path segment: a non-empty C string of fewer than 128 bytes without `.`, `[`, `]`. -/
def isName (k : Str) : Bool :=
  !k.isEmpty && decide (k.length < 128) &&
    k.all (fun c => c != '.' && c != '[' && c != ']' && c != Char.ofNat 0)

/-- The path `k1.k2...kn`. -/
def dotted : List Str → Str
  | [] => []
  | [k] => k
  | k :: ks => k ++ '.' :: dotted ks

/-- Characters that end a token. -/
def isDelim (c : Char) : Bool := c == '.' || c == '[' || c == ']'

/-- Reference semantics of a dotted path: named-field lookups from `cur`, each result
pushed, stopping at the first `nil`. -/
def descend : List Str → LuaState → Value → Outcome Int
  | [], L, _ => Outcome.ok 0 L
  | k :: ks, L, cur =>
    match lua_getfield L cur k with
    | Except.error f => Outcome.fault f
    | Except.ok v =>
      if v.isNil then Outcome.ok (-1) { L with stack := v :: L.stack }
      else descend ks { L with stack := v :: L.stack } v

/-- The value a sequence of names leads to through nested tables, from the table `t`;
`none` when a name would have to be looked up in a value that is not a table. -/
def follow : Table → List Str → Option Value
  | t, [] => some (Value.table t)
  | t, [k] => some (Table.get t (Key.str k))
  | t, k :: k2 :: ks =>
    match Table.get t (Key.str k) with
    | Value.table t' => follow t' (k2 :: ks)
    | _ => none

/-- A document with `a = { b = {} }`. -/
def docMissing : LuaState :=
  { globals := [(Key.str "a".data, Value.table [(Key.str "b".data, Value.table [])])],
    strlib := [], stack := [] }

/-- The range of C `int`. -/
def isInt (v : Int) : Prop := -2147483648 ≤ v ∧ v < 2147483648

/-- A document with `a = { b = { c = 5 } }` among its globals. -/
def docNested : LuaState :=
  { globals :=
      [(Key.str "board".data, Value.table [(Key.str "type".data, Value.string "rpi".data)]),
       (Key.str "a".data,
          Value.table [(Key.str "b".data, Value.table [(Key.str "c".data, Value.number 5)])])],
    strlib := [], stack := [] }

/-- The path `a[ds].b`. -/
def indexedPath (a ds b : Str) : Str := a ++ ('[' :: (ds ++ (']' :: '.' :: b)))

/-- A document with `a = { { b = 1 }, { b = 2 } }`. -/
def docArrayOfTables : LuaState :=
  { globals :=
      [(Key.str "a".data,
          Value.table [(Key.int 1, Value.table [(Key.str "b".data, Value.number 1)]),
                       (Key.int 2, Value.table [(Key.str "b".data, Value.number 2)])])],
    strlib := [], stack := [] }

/-- A document with `a = { 10, 20, 30 }`. -/
def docArray : LuaState :=
  { globals :=
      [(Key.str "a".data,
          Value.table [(Key.int 1, Value.number 10), (Key.int 2, Value.number 20),
                       (Key.int 3, Value.number 30)])],
    strlib := [], stack := [] }

/-- The array part of a table whose integer keys are exactly `1..n`: entry `i` holds the
number `vs[i-1]`, every other integer key is absent. -/
def HoldsArray (t : Table) (vs : List Int) : Prop :=
  ∀ i : Int, Table.get t (Key.int i) =
    if 1 ≤ i ∧ i ≤ Int.ofNat vs.length then Value.number (vs.getD (i - 1).toNat 0)
    else Value.nil

/-- The number of contiguous entries at the integer keys `1, 2, ...`, counted from `n`
with at most `fuel` further steps. -/
def contiguousFrom (t : Table) : Nat → Nat → Nat
  | 0, n => n
  | fuel + 1, n =>
    if (Table.get t (Key.int (Int.ofNat n + 1))).isNil then n
    else contiguousFrom t fuel (n + 1)

/-- The array length the specification gives a table: the number `n` of contiguous
entries at the integer keys `1..n` when `n > 0`, otherwise the number of all entries. -/
def specArrayLength (t : Table) : Nat :=
  if 0 < contiguousFrom t t.length 0 then contiguousFrom t t.length 0 else t.length

/-- The largest positive integer key of a table, `0` when it has none: the length Lua 5.1
reports for a table built by a positional constructor whose last item is not `nil` (the
size of its array part). -/
def maxIndex : Table → Nat
  | [] => 0
  | (Key.int i, _) :: rest => max i.toNat (maxIndex rest)
  | (Key.str _, _) :: rest => maxIndex rest

/-- The table `{ 10, nil, 30 }`. -/
def holeTable : Table := [(Key.int 1, Value.number 10), (Key.int 3, Value.number 30)]

/-- A document with `a = { 10, nil, 30 }`. -/
def docHole : LuaState :=
  { globals := [(Key.str "a".data, Value.table holeTable)], strlib := [], stack := [] }

/-- A Lua state whose document has `board = { type = "rpi" }`. -/
def freshState : LuaState :=
  { globals := [(Key.str "board".data,
      Value.table [(Key.str "type".data, Value.string "rpi".data)])],
    strlib := [], stack := [] }

/-- An instance with that document and an empty overlay. -/
def freshInstance : Instance := { mSettings := [], L := some freshState }

/-- A string without leading or trailing whitespace. -/
def isTrimmed (s : Str) : Bool :=
  match s.head?, s.getLast? with
  | some a, some b => !whitespace.contains a && !whitespace.contains b
  | _, _ => true

/-- An overlay entry that the line format can carry: no `=` in the key, no newline in
key or value, no leading or trailing whitespace in either. -/
def isPlainEntry (e : Str × Str) : Bool :=
  !e.1.contains '=' && !e.1.contains '\n' && !e.2.contains '\n' &&
    isTrimmed e.1 && isTrimmed e.2

/-- The line `Save` writes for an entry, without its newline. -/
def settingLine (e : Str × Str) : Str := e.1 ++ [' ', '=', ' '] ++ e.2

/-- A document with `x = 5`, `flag = true` and `s = "hello"`; the string library has
`len`. -/
def docScalars : LuaState :=
  { globals := [(Key.str "x".data, Value.number 5), (Key.str "flag".data, Value.boolean true),
      (Key.str "s".data, Value.string "hello".data)],
    strlib := [(Key.str "len".data, Value.function 1)], stack := [] }

/-- A document with `accelerometers = {}`, `gyroscopes = { g = 5 }` and
`magnetometers = {}`. -/
def docScalarDevice : LuaState :=
  { globals := [(Key.str "accelerometers".data, Value.table []),
      (Key.str "gyroscopes".data, Value.table [(Key.str "g".data, Value.number 5)]),
      (Key.str "magnetometers".data, Value.table [])],
    strlib := [], stack := [] }

/-- A registry with one device, the gyroscope `g`. -/
def registryG (kind : SensorKind) (name : Str) : Bool :=
  decide (kind = SensorKind.gyroscope) && decide (name = "g".data)

/-- A document with two gyroscopes, `g` with `axis_swap = { x = 2, y = -1 }` and `h`
without one, and an accelerometer `a`. -/
def docDevices : LuaState :=
  { globals := [(Key.str "accelerometers".data,
        Value.table [(Key.str "a".data, Value.table [])]),
      (Key.str "gyroscopes".data,
        Value.table [(Key.str "g".data, Value.table [(Key.str "axis_swap".data,
            Value.table [(Key.str "x".data, Value.number 2),
              (Key.str "y".data, Value.number (-1))])]),
          (Key.str "h".data, Value.table [])]),
      (Key.str "magnetometers".data, Value.table [])],
    strlib := [], stack := [] }

/-- The integer `Apply` reads for one axis of a device entry: the field `axis` of the
entry's `axis_swap` table converted by `lua_tointeger`, `0` when `axis_swap` or the
field is missing. -/
def axisValue (str2int : Str → Int) (entry : Value) (axis : Str) : Int :=
  match entry with
  | Value.table e =>
    match Table.get e (Key.str "axis_swap".data) with
    | Value.table a =>
      if (Table.get a (Key.str axis)).isNil then 0
      else lua_tointeger str2int (Table.get a (Key.str axis))
    | _ => 0
  | _ => 0

/-- The calls expected for a collection: one per entry whose key is registered, in the
order of the entries. -/
def expectedCalls (registry : SensorKind → Str → Bool) (str2int : Str → Int)
    (kind : SensorKind) : Table → List AxisSwapCall
  | [] => []
  | (Key.str s, v) :: rest =>
    if registry kind s then
      { kind := kind, name := s,
        swap := [axisValue str2int v "x".data, axisValue str2int v "y".data,
          axisValue str2int v "z".data, 0] } :: expectedCalls registry str2int kind rest
    else expectedCalls registry str2int kind rest
  | (Key.int _, _) :: rest => expectedCalls registry str2int kind rest

/-- A device collection `Apply` handles without fault: distinct string keys without NUL,
and under every registered key a name holding a table whose `axis_swap` is absent or a
table. -/
def DeviceCollection (registry : SensorKind → Str → Bool) (kind : SensorKind) (t : Table) :
    Prop :=
  (t.map Prod.fst).Nodup ∧
    ∀ e ∈ t, ∃ s, e.1 = Key.str s ∧ (∀ c ∈ s, c ≠ Char.ofNat 0) ∧
      (registry kind s = true →
        isName s = true ∧ ∃ d, e.2 = Value.table d ∧
          (Table.get d (Key.str "axis_swap".data) = Value.nil ∨
            ∃ a, Table.get d (Key.str "axis_swap".data) = Value.table a))

/-- The string keys of a table, in order. -/
def stringKeys : Table → List Str
  | [] => []
  | (Key.str s, _) :: rest => s :: stringKeys rest
  | (Key.int _, _) :: rest => stringKeys rest

/-- The value the bracket branch of `LocateValue` reads from a table for a token: the
entry at the integer `atoi(t)` when `t` starts with a digit, the field `t` otherwise. -/
def bracketValue (T : Table) (t : Str) : Value :=
  if isDigit (t.headD ' ') then Table.get T (Key.int (atoi t)) else Table.get T (Key.str t)

/-- The path `a[t]`. -/
def bracketPath (a t : Str) : Str := a ++ ('[' :: (t ++ [']']))

/-- The table `{ [1] = 10, ["1x"] = 20 }`. -/
def mixedTable : Table := [(Key.int 1, Value.number 10), (Key.str "1x".data, Value.number 20)]

/-- A document with `a = { [1] = 10, ["1x"] = 20 }`. -/
def docMixed : LuaState :=
  { globals := [(Key.str "a".data, Value.table mixedTable)], strlib := [], stack := [] }

/-- The state `docNested` (`a = { b = { c = 5 } }`) after the call `LocateValue("a")`, which
leaves the table `a` on the stack. -/
def docNestedAfterA : LuaState :=
  { docNested with
    stack := [Value.table [(Key.str "b".data,
      Value.table [(Key.str "c".data, Value.number 5)])]] }

/-! # Lemmas and theorems -/

theorem locateLoop_token (w : Str) (hw : ∀ c ∈ w, isDelim c = false) :
    ∀ (cs tmp : Str) (k : Nat) (it : Bool) (L : LuaState),
      tmp.length + w.length < 129 →
      locateLoop (w ++ cs) tmp k it L = locateLoop cs (tmp ++ w) k it L := by
  induction w with
  | nil => intro cs tmp k it L _; simp
  | cons c w ih =>
    intro cs tmp k it L hlen
    have hc : isDelim c = false := hw c (List.mem_cons_self _ _)
    have hc' : ¬ (c = '.' ∨ c = '[' ∨ c = ']') := by
      simp [isDelim] at hc; tauto
    have h1 : ¬ 128 ≤ tmp.length := by simp at hlen; omega
    have := ih (fun x hx => hw x (List.mem_cons_of_mem _ hx)) cs (tmp ++ [c]) k it L
      (by simp at hlen ⊢; omega)
    rw [List.cons_append, locateLoop, if_neg hc', if_neg h1, this]
    simp

theorem isName_ne_nil {k : Str} (h : isName k = true) : k ≠ [] := by
  intro hk; subst hk; simp [isName] at h

theorem isName_length {k : Str} (h : isName k = true) : k.length < 128 := by
  simp [isName] at h; exact h.1.2

theorem isName_delim {k : Str} (h : isName k = true) : ∀ c ∈ k, isDelim c = false := by
  intro c hc
  simp [isName] at h
  have := h.2 c hc
  simp [isDelim]; tauto

theorem isName_nul {k : Str} (h : isName k = true) : ∀ c ∈ k, c ≠ Char.ofNat 0 := by
  intro c hc
  simp [isName] at h
  exact (h.2 c hc).2

theorem locateLoop_end (tmp : Str) (k : Nat) (it : Bool) (L : LuaState) (cur : Value)
    (rest : List Value) (hs : L.stack = cur :: rest) (h1 : tmp ≠ []) (h2 : tmp.length < 128) :
    locateLoop [] tmp k it L = descend [tmp] L cur := by
  have h3 : ¬ 128 ≤ tmp.length := by omega
  obtain ⟨g, sl, st⟩ := L
  simp only at hs
  subst hs
  rw [locateLoop, if_neg h3, if_neg h1]
  simp only [descend]

theorem locateLoop_dot (tmp cs : Str) (k : Nat) (it : Bool) (L : LuaState) (cur : Value)
    (rest : List Value) (hs : L.stack = cur :: rest) (h1 : tmp ≠ []) (h2 : tmp.length < 128) :
    locateLoop ('.' :: cs) tmp (k + 1) it L =
      match lua_getfield L cur tmp with
      | Except.error f => Outcome.fault f
      | Except.ok v =>
        if v.isNil then Outcome.ok (-1) { L with stack := v :: L.stack }
        else locateLoop cs [] (k + 2) it { L with stack := v :: L.stack } := by
  have h3 : ¬ 128 ≤ tmp.length := by omega
  obtain ⟨g, sl, st⟩ := L
  simp only at hs
  subst hs
  rw [locateLoop, if_pos (Or.inl rfl), if_neg h3, if_neg h1]
  simp

theorem locateLoop_dot_first (tmp cs : Str) (L : LuaState) (h1 : tmp ≠ [])
    (h2 : tmp.length < 128) :
    locateLoop ('.' :: cs) tmp 0 false L =
      if (Table.get L.globals (Key.str tmp)).isNil then
        Outcome.ok (-1) { L with stack := Table.get L.globals (Key.str tmp) :: L.stack }
      else locateLoop cs [] 1 false
        { L with stack := Table.get L.globals (Key.str tmp) :: L.stack } := by
  have h3 : ¬ 128 ≤ tmp.length := by omega
  rw [locateLoop, if_pos (Or.inl rfl), if_neg h3, if_neg h1]
  simp

theorem locateLoop_dotted : ∀ (ks : List Str), ks ≠ [] → (∀ k ∈ ks, isName k = true) →
    ∀ (n : Nat) (it : Bool) (L : LuaState) (cur : Value) (rest : List Value),
      L.stack = cur :: rest →
      locateLoop (dotted ks) [] (n + 1) it L = descend ks L cur := by
  intro ks
  induction ks with
  | nil => intro h; exact absurd rfl h
  | cons k tl ih =>
    intro _ hn n it L cur rest hs
    have hk := hn k (List.mem_cons_self _ _)
    cases tl with
    | nil =>
      have := locateLoop_token k (isName_delim hk) [] [] (n + 1) it L
        (by have := isName_length hk; simp; omega)
      simp only [dotted]
      rw [List.append_nil] at this
      rw [this, List.nil_append]
      exact locateLoop_end k _ it L cur rest hs (isName_ne_nil hk) (isName_length hk)
    | cons k2 tl2 =>
      have := locateLoop_token k (isName_delim hk) ('.' :: dotted (k2 :: tl2)) [] (n + 1) it L
        (by have := isName_length hk; simp; omega)
      simp only [dotted]
      rw [this, List.nil_append,
        locateLoop_dot k _ n it L cur rest hs (isName_ne_nil hk) (isName_length hk)]
      rw [descend]
      cases lua_getfield L cur k with
      | error f => rfl
      | ok v =>
        by_cases hv : v.isNil = true
        · simp only [hv, if_true]
        · simp only [hv, if_false]
          exact ih (by simp) (fun x hx => hn x (List.mem_cons_of_mem _ hx)) (n + 1) it
            { L with stack := v :: L.stack } v L.stack rfl

theorem c_str_eq_self {s : Str} (h : ∀ c ∈ s, c ≠ Char.ofNat 0) : c_str s = s := by
  unfold c_str
  rw [List.takeWhile_eq_self_iff]
  intro c hc
  simpa using h c hc

theorem mem_dotted {c : Char} : ∀ (ks : List Str), c ∈ dotted ks → c = '.' ∨ ∃ k ∈ ks, c ∈ k
  | [], h => by simp [dotted] at h
  | [k], h => Or.inr ⟨k, by simp, by simpa [dotted] using h⟩
  | k :: k2 :: tl, h => by
    simp only [dotted, List.mem_append, List.mem_cons] at h
    rcases h with h | h | h
    · exact Or.inr ⟨k, by simp, h⟩
    · exact Or.inl h
    · rcases mem_dotted (k2 :: tl) h with h' | ⟨k', hk', hc⟩
      · exact Or.inl h'
      · exact Or.inr ⟨k', List.mem_cons_of_mem _ hk', hc⟩

theorem c_str_dotted {ks : List Str} (hn : ∀ k ∈ ks, isName k = true) :
    c_str (dotted ks) = dotted ks := by
  apply c_str_eq_self
  intro c hc
  rcases mem_dotted ks hc with h | ⟨k, hk, hck⟩
  · subst h; decide
  · exact isName_nul (hn k hk) c hck

theorem strchr_name {k : Str} (hk : isName k = true) :
    strchr k '.' = false ∧ strchr k '[' = false := by
  have h := isName_delim hk
  constructor
  · simp only [strchr, List.contains_eq_any_beq, Bool.eq_false_iff, ne_eq, List.any_eq_true,
      not_exists, not_and]
    intro c hc hcd
    have := h c hc
    simp [isDelim] at this
    simp at hcd
    exact this.1.1 hcd.symm
  · simp only [strchr, List.contains_eq_any_beq, Bool.eq_false_iff, ne_eq, List.any_eq_true,
      not_exists, not_and]
    intro c hc hcd
    have := h c hc
    simp [isDelim] at this
    simp at hcd
    exact this.1.2 hcd.symm

/-- A dotted path of names is resolved by named-field lookups from the global table. -/
theorem LocateValue_dotted (L : LuaState) (ks : List Str) (hne : ks ≠ [])
    (hn : ∀ k ∈ ks, isName k = true) :
    LocateValue L (dotted ks) = descend ks L (Value.table L.globals) := by
  unfold LocateValue
  simp only [c_str_dotted hn]
  cases ks with
  | nil => exact absurd rfl hne
  | cons k tl =>
    have hk := hn k (List.mem_cons_self _ _)
    cases tl with
    | nil =>
      have hs := strchr_name hk
      simp only [dotted, hs.1, hs.2, Bool.not_false, Bool.and_self, if_true, descend,
        lua_getfield]
    | cons k2 tl2 =>
      have hdot : strchr (dotted (k :: k2 :: tl2)) '.' = true := by
        simp [strchr, dotted]
      simp only [hdot, Bool.not_true, Bool.false_and, Bool.false_eq_true, if_false]
      have := locateLoop_token k (isName_delim hk) ('.' :: dotted (k2 :: tl2)) [] 0 false L
        (by have := isName_length hk; simp; omega)
      simp only [dotted]
      rw [this, List.nil_append,
        locateLoop_dot_first k _ L (isName_ne_nil hk) (isName_length hk), descend]
      simp only [lua_getfield]
      by_cases hv : (Table.get L.globals (Key.str k)).isNil = true
      · rw [if_pos hv, if_pos hv]
      · rw [if_neg hv, if_neg hv]
        exact locateLoop_dotted (k2 :: tl2) (by simp)
          (fun x hx => hn x (List.mem_cons_of_mem _ hx)) 0 false
          { L with stack := Table.get L.globals (Key.str k) :: L.stack }
          (Table.get L.globals (Key.str k)) L.stack rfl

theorem descend_missing : ∀ (pre : List Str) (post : List Str) (t : Table) (L : LuaState),
    follow t pre = some Value.nil →
    ∃ L', descend (pre ++ post) L (Value.table t) = Outcome.ok (-1) L' ∧
      descend pre L (Value.table t) = Outcome.ok (-1) L' ∧
      L'.stack.length = L.stack.length + pre.length := by
  intro pre
  induction pre with
  | nil => intro post t L h; simp [follow] at h
  | cons k tl ih =>
    intro post t L h
    cases tl with
    | nil =>
      simp only [follow, Option.some.injEq] at h
      refine ⟨{ L with stack := Value.nil :: L.stack }, ?_, ?_, by simp⟩
      · simp [descend, lua_getfield, h, Value.isNil]
      · simp [descend, lua_getfield, h, Value.isNil]
    | cons k2 tl2 =>
      simp only [follow] at h
      cases hv : Table.get t (Key.str k) with
      | table t' =>
        rw [hv] at h
        obtain ⟨L', h1, h2, h3⟩ := ih post t' { L with stack := Value.table t' :: L.stack } h
        refine ⟨L', ?_, ?_, ?_⟩
        · rw [List.cons_append, descend]
          simp only [lua_getfield, hv, Value.isNil]
          exact h1
        · rw [descend]
          simp only [lua_getfield, hv, Value.isNil]
          exact h2
        · rw [h3]; simp; omega
      | nil => rw [hv] at h; simp at h
      | boolean b => rw [hv] at h; simp at h
      | number n => rw [hv] at h; simp at h
      | string s => rw [hv] at h; simp at h
      | function f => rw [hv] at h; simp at h

/-- C1: a dotted path of names in which a prefix resolves to nil (its last name is
missing from the global table or from the table the names before it lead to) is reported
not-found after one lookup per name of the prefix, exactly as the path cut after that
prefix, and `string`, `integer`, `number` and `boolean` return the default. -/
theorem missing_prefix_returns_default (L : LuaState) (pre post : List Str)
    (hn : ∀ k ∈ pre ++ post, isName k = true)
    (hnil : follow L.globals pre = some Value.nil) :
    ∃ L', LocateValue L (dotted (pre ++ post)) = Outcome.ok (-1) L' ∧
      LocateValue L (dotted pre) = Outcome.ok (-1) L' ∧
      L'.stack.length = L.stack.length + pre.length ∧
      (∀ d, string L (dotted (pre ++ post)) d = Outcome.ok d L') ∧
      (∀ str2int d, integer str2int L (dotted (pre ++ post)) d = Outcome.ok d L') ∧
      (∀ (F : Type) (tonumber : Value → F) (d : F),
        number tonumber L (dotted (pre ++ post)) d = Outcome.ok d L') ∧
      (∀ d, boolean L (dotted (pre ++ post)) d = Outcome.ok d L') := by
  have hpre : pre ≠ [] := by
    intro h; subst h; simp [follow] at hnil
  obtain ⟨L', h1, h2, h3⟩ := descend_missing pre post L.globals L hnil
  have hloc : LocateValue L (dotted (pre ++ post)) = Outcome.ok (-1) L' := by
    rw [LocateValue_dotted L (pre ++ post) (by simp [hpre]) hn]; exact h1
  have hloc2 : LocateValue L (dotted pre) = Outcome.ok (-1) L' := by
    rw [LocateValue_dotted L pre hpre (fun k hk => hn k (List.mem_append_left _ hk))]
    exact h2
  refine ⟨L', hloc, hloc2, h3, ?_, ?_, ?_, ?_⟩
  · intro d; simp [string, hloc]
  · intro f d; simp [integer, hloc]
  · intro F f d; simp [number, hloc]
  · intro d; simp [boolean, hloc]

theorem missing_prefix_returns_default_witness :
    ∃ L', LocateValue docMissing "a.b.c.d".data = Outcome.ok (-1) L' ∧
      LocateValue docMissing "a.b.c".data = Outcome.ok (-1) L' ∧
      L'.stack.length = 3 ∧
      (∀ d, string docMissing "a.b.c.d".data d = Outcome.ok d L') ∧
      (∀ str2int d, integer str2int docMissing "a.b.c.d".data d = Outcome.ok d L') ∧
      (∀ (F : Type) (tonumber : Value → F) (d : F),
        number tonumber docMissing "a.b.c.d".data d = Outcome.ok d L') ∧
      (∀ d, boolean docMissing "a.b.c.d".data d = Outcome.ok d L') :=
  missing_prefix_returns_default docMissing ["a".data, "b".data, "c".data] ["d".data]
    (by decide) rfl

theorem toInt32_of_isInt {v : Int} (h : isInt v) : toInt32 v = v := by
  unfold isInt at h
  unfold toInt32
  omega

theorem descend_found : ∀ (ks : List Str) (t : Table) (L : LuaState) (v : Value),
    ks ≠ [] → follow t ks = some v → v.isNil = false →
    ∃ L', descend ks L (Value.table t) = Outcome.ok 0 L' ∧ L'.stack.head? = some v ∧
      L'.globals = L.globals ∧ L'.strlib = L.strlib := by
  intro ks
  induction ks with
  | nil => intro t L v h; exact absurd rfl h
  | cons k tl ih =>
    intro t L v _ h hv
    cases tl with
    | nil =>
      simp only [follow, Option.some.injEq] at h
      refine ⟨{ L with stack := v :: L.stack }, ?_, rfl, rfl, rfl⟩
      simp [descend, lua_getfield, h, hv]
    | cons k2 tl2 =>
      simp only [follow] at h
      cases hg : Table.get t (Key.str k) with
      | table t' =>
        rw [hg] at h
        obtain ⟨L', h1, h2, h3, h4⟩ :=
          ih t' { L with stack := Value.table t' :: L.stack } v (by simp) h hv
        refine ⟨L', ?_, h2, h3, h4⟩
        rw [descend]
        simp only [lua_getfield, hg, Value.isNil]
        exact h1
      | nil => rw [hg] at h; simp at h
      | boolean b => rw [hg] at h; simp at h
      | number n => rw [hg] at h; simp at h
      | string s => rw [hg] at h; simp at h
      | function f => rw [hg] at h; simp at h

theorem integer_of_found (str2int : Str → Int) (L L' : LuaState) (p : Str) (d : Int)
    (top : Value) (h : LocateValue L p = Outcome.ok 0 L') (ht : L'.stack.head? = some top) :
    integer str2int L p d = Outcome.ok (lua_tointeger str2int top) L' := by
  unfold integer
  rw [h]
  cases hs : L'.stack with
  | nil => rw [hs] at ht; simp at ht
  | cons x rest =>
    rw [hs] at ht
    simp only [List.head?_cons, Option.some.injEq] at ht
    subst ht
    simp [hs]

/-- C2: when the names `k1 ... kn` lead from the global table through nested tables to a
field holding the integer `v`, `integer("k1.k2...kn", d)` returns `v` whatever the
default `d` is. -/
theorem integer_nested_field (str2int : Str → Int) (L : LuaState) (ks : List Str)
    (v d : Int) (hne : ks ≠ []) (hn : ∀ k ∈ ks, isName k = true)
    (hv : follow L.globals ks = some (Value.number v)) (hr : isInt v) :
    ∃ L', integer str2int L (dotted ks) d = Outcome.ok v L' := by
  obtain ⟨L', h1, h2, _, _⟩ := descend_found ks L.globals L (Value.number v) hne hv rfl
  refine ⟨L', ?_⟩
  have hloc : LocateValue L (dotted ks) = Outcome.ok 0 L' := by
    rw [LocateValue_dotted L ks hne hn]; exact h1
  rw [integer_of_found str2int L L' (dotted ks) d (Value.number v) hloc h2]
  simp [lua_tointeger, toInt32_of_isInt hr]

theorem integer_nested_field_witness :
    ∃ L', integer (fun _ => 0) docNested "a.b.c".data 0 = Outcome.ok 5 L' :=
  integer_nested_field (fun _ => 0) docNested ["a".data, "b".data, "c".data] 5 0
    (by decide) (by decide) rfl (by unfold isInt; decide)

theorem isDigit_not_delim {c : Char} (h : isDigit c = true) : isDelim c = false := by
  cases hd : isDelim c with
  | false => rfl
  | true =>
    simp only [isDelim, Bool.or_eq_true, beq_iff_eq] at hd
    rcases hd with (hd | hd) | hd <;> subst hd <;> revert h <;> decide

theorem isDigit_not_nul {c : Char} (h : isDigit c = true) : c ≠ Char.ofNat 0 := by
  intro hc; subst hc; revert h; decide

theorem atoi_of_small {ds : Str} {i : Nat} (h : leadingDigits ds 0 = i)
    (hi : i < 2147483648) : atoi ds = Int.ofNat i := by
  unfold atoi
  rw [h]
  have : min i 9223372036854775807 = i := by omega
  rw [this]
  unfold toInt32
  simp only [Int.ofNat_eq_coe]
  omega

theorem locateLoop_open_first (tmp cs : Str) (L : LuaState) (h1 : tmp ≠ [])
    (h2 : tmp.length < 128) :
    locateLoop ('[' :: cs) tmp 0 false L =
      if (Table.get L.globals (Key.str tmp)).isNil then
        Outcome.ok (-1) { L with stack := Table.get L.globals (Key.str tmp) :: L.stack }
      else locateLoop cs [] 1 true
        { L with stack := Table.get L.globals (Key.str tmp) :: L.stack } := by
  have h3 : ¬ 128 ≤ tmp.length := by omega
  rw [locateLoop, if_pos (Or.inr (Or.inl rfl)), if_neg h3, if_neg h1]
  simp

theorem locateLoop_close_index (tmp cs : Str) (k : Nat) (L : LuaState) (t : Table)
    (rest : List Value) (hs : L.stack = Value.table t :: rest) (h1 : tmp ≠ [])
    (h2 : tmp.length < 128) (hd : isDigit (tmp.headD ' ') = true) :
    locateLoop (']' :: cs) tmp k true L =
      if (Table.get t (Key.int (atoi tmp))).isNil then
        Outcome.ok (-1) { L with stack := Table.get t (Key.int (atoi tmp)) :: L.stack }
      else locateLoop cs [] (k + 1) true
        { L with stack := Table.get t (Key.int (atoi tmp)) :: L.stack } := by
  have h3 : ¬ 128 ≤ tmp.length := by omega
  obtain ⟨g, sl, st⟩ := L
  simp only at hs
  subst hs
  have hd' : isDigit ((List.head? tmp).getD ' ') = true := by simpa using hd
  rw [locateLoop, if_pos (Or.inr (Or.inr rfl)), if_neg h3, if_neg h1]
  simp [hd']

theorem locateLoop_skip_dot (cs : Str) (k : Nat) (it : Bool) (L : LuaState) :
    locateLoop ('.' :: cs) [] k it L = locateLoop cs [] (k + 1) it L := by
  rw [locateLoop, if_pos (Or.inl rfl)]
  simp

/-- C3: when global `a` is a table whose entry at the integer key `i` is a table with a
field `b` holding the integer `v`, `integer("a[i].b", d)` returns `v` for every decimal
writing `ds` of `i` and every default `d`. -/
theorem integer_indexed_field (str2int : Str → Int) (L : LuaState) (a ds b : Str)
    (i : Nat) (t t2 : Table) (v d : Int)
    (ha : isName a = true) (hb : isName b = true)
    (hds : ds ≠ []) (hdig : ∀ c ∈ ds, isDigit c = true) (hlen : ds.length < 128)
    (hval : leadingDigits ds 0 = i) (hi : i < 2147483648)
    (hta : Table.get L.globals (Key.str a) = Value.table t)
    (hti : Table.get t (Key.int (Int.ofNat i)) = Value.table t2)
    (htb : Table.get t2 (Key.str b) = Value.number v) (hr : isInt v) :
    ∃ L', integer str2int L (indexedPath a ds b) d = Outcome.ok v L' := by
  have hnul : c_str (indexedPath a ds b) = indexedPath a ds b := by
    apply c_str_eq_self
    intro c hc
    simp only [indexedPath, List.mem_append, List.mem_cons] at hc
    rcases hc with hc | hc | hc | hc | hc | hc
    · exact isName_nul ha c hc
    · subst hc; decide
    · exact isDigit_not_nul (hdig c hc)
    · subst hc; decide
    · subst hc; decide
    · exact isName_nul hb c hc
  have hbr : strchr (indexedPath a ds b) '[' = true := by
    simp [strchr, indexedPath]
  have hhead : isDigit (ds.headD ' ') = true := by
    cases ds with
    | nil => exact absurd rfl hds
    | cons c cs => exact hdig c (List.mem_cons_self _ _)
  have hloc : LocateValue L (indexedPath a ds b) = Outcome.ok 0
      { L with stack := Value.number v :: Value.table t2 :: Value.table t :: L.stack } := by
    unfold LocateValue
    simp only [hnul, hbr, Bool.not_true, Bool.and_false, Bool.false_eq_true, if_false]
    unfold indexedPath
    rw [locateLoop_token a (isName_delim ha) _ [] 0 false L
        (by have := isName_length ha; simp; omega),
      List.nil_append,
      locateLoop_open_first a _ L (isName_ne_nil ha) (isName_length ha), hta]
    simp only [Value.isNil, Bool.false_eq_true, if_false]
    rw [locateLoop_token ds (fun c hc => isDigit_not_delim (hdig c hc)) _ [] 1 true _
        (by simp; omega),
      List.nil_append,
      locateLoop_close_index ds _ 1 _ t L.stack rfl hds hlen hhead,
      atoi_of_small hval hi, hti]
    simp only [Value.isNil, Bool.false_eq_true, if_false]
    rw [locateLoop_skip_dot]
    have := locateLoop_dotted [b] (by simp) (by simpa using hb) 2 true
      { L with stack := Value.table t2 :: Value.table t :: L.stack } (Value.table t2)
      (Value.table t :: L.stack) rfl
    simp only [dotted] at this
    rw [this]
    simp [descend, lua_getfield, htb, Value.isNil]
  refine ⟨{ L with stack := Value.number v :: Value.table t2 :: Value.table t :: L.stack }, ?_⟩
  rw [integer_of_found str2int L _ (indexedPath a ds b) d (Value.number v) hloc rfl]
  simp [lua_tointeger, toInt32_of_isInt hr]

theorem integer_indexed_field_witness :
    ∃ L', integer (fun _ => 0) docArrayOfTables "a[2].b".data 0 = Outcome.ok 2 L' :=
  integer_indexed_field (fun _ => 0) docArrayOfTables "a".data "2".data "b".data 2
    [(Key.int 1, Value.table [(Key.str "b".data, Value.number 1)]),
     (Key.int 2, Value.table [(Key.str "b".data, Value.number 2)])]
    [(Key.str "b".data, Value.number 2)] 2 0
    (by decide) (by decide) (by decide) (by decide) (by decide) (by decide) (by decide)
    rfl rfl rfl (by unfold isInt; decide)

theorem border_of_holdsArray {t : Table} {vs : List Int} {m : Nat} (h : HoldsArray t vs)
    (hb : IsBorder t m) : m = vs.length := by
  obtain ⟨h1, h2⟩ := hb
  have e2 := h (Int.ofNat m + 1)
  rw [e2] at h2
  have hm : ¬ (1 ≤ (Int.ofNat m + 1) ∧ Int.ofNat m + 1 ≤ Int.ofNat vs.length) := by
    intro hc; rw [if_pos hc] at h2; simp [Value.isNil] at h2
  rcases h1 with h1 | h1
  · subst h1
    simp only [Int.ofNat_eq_coe] at hm
    omega
  · have e1 := h (Int.ofNat m)
    rw [e1] at h1
    have hm1 : 1 ≤ Int.ofNat m ∧ Int.ofNat m ≤ Int.ofNat vs.length := by
      by_contra hc; rw [if_neg hc] at h1; simp [Value.isNil] at h1
    simp only [Int.ofNat_eq_coe] at hm hm1
    omega

theorem holdsArray_read (str2int : Str → Int) {t : Table} {vs : List Int}
    (h : HoldsArray t vs) (hint : ∀ v ∈ vs, isInt v) (hsize : vs.length < 2147483648) :
    (List.range' 1 vs.length).map (fun i =>
      lua_tointeger str2int (Table.get t (Key.int (toInt32 (Int.ofNat i))))) = vs := by
  apply List.ext_getElem
  · simp
  · intro n h1 h2
    simp only [List.getElem_map, List.getElem_range', one_mul]
    have hn : toInt32 (Int.ofNat (1 + n)) = Int.ofNat (1 + n) := by
      apply toInt32_of_isInt
      unfold isInt
      simp only [Int.ofNat_eq_coe]
      omega
    rw [hn, h (Int.ofNat (1 + n))]
    have hin : 1 ≤ Int.ofNat (1 + n) ∧ Int.ofNat (1 + n) ≤ Int.ofNat vs.length := by
      simp only [Int.ofNat_eq_coe]; omega
    rw [if_pos hin]
    have hidx : (Int.ofNat (1 + n) - 1).toNat = n := by
      simp only [Int.ofNat_eq_coe]; omega
    rw [hidx, List.getD_eq_getElem vs 0 h2]
    simp only [lua_tointeger]
    exact toInt32_of_isInt (hint _ (List.getElem_mem h2))

/-- C4: when the path `P` resolves to a table whose integer keys are exactly `1..n` and
hold the integers `v1..vn`, `integerArray(P)` returns `[v1, ..., vn]` in that order and
pops the table. -/
theorem integerArray_dense (objlen : Table → Nat) (str2int : Str → Int) (L L1 : LuaState)
    (P : Str) (t : Table) (rest : List Value) (vs : List Int)
    (hloc : LocateValue L P = Outcome.ok 0 L1)
    (htop : L1.stack = Value.table t :: rest)
    (hkeys : HoldsArray t vs) (hborder : IsBorder t (objlen t))
    (hint : ∀ v ∈ vs, isInt v) (hsize : vs.length < 2147483648) :
    integerArray objlen str2int L P = Outcome.ok vs { L1 with stack := rest } := by
  have hlen : objlen t = vs.length := border_of_holdsArray hkeys hborder
  unfold integerArray
  rw [hloc]
  simp only [htop, lua_objlen, hlen]
  by_cases hz : 0 < vs.length
  · have hread := holdsArray_read str2int hkeys hint hsize
    simp only [Int.ofNat_eq_coe] at hread
    simp [hz, hread]
  · have : vs = [] := by
      cases vs with
      | nil => rfl
      | cons a as => simp at hz
    subst this
    simp

theorem integerArray_dense_witness :
    integerArray (fun _ => 3) (fun _ => 0) docArray "a".data =
      Outcome.ok [10, 20, 30] { docArray with stack := [] } :=
  integerArray_dense (fun _ => 3) (fun _ => 0) docArray
    { docArray with stack := [Value.table [(Key.int 1, Value.number 10),
        (Key.int 2, Value.number 20), (Key.int 3, Value.number 30)]] }
    "a".data
    [(Key.int 1, Value.number 10), (Key.int 2, Value.number 20), (Key.int 3, Value.number 30)]
    [] [10, 20, 30] rfl rfl
    (by
      intro i
      by_cases h1 : i = 1
      · subst h1; rfl
      by_cases h2 : i = 2
      · subst h2; rfl
      by_cases h3 : i = 3
      · subst h3; rfl
      have hne : ¬ (1 ≤ i ∧ i ≤ Int.ofNat [(10 : Int), 20, 30].length) := by
        simp only [List.length_cons, List.length_nil, Int.ofNat_eq_coe]; omega
      rw [if_neg hne]
      simp [Table.get, h1, h2, h3, eq_comm])
    (by unfold IsBorder; decide)
    (by unfold isInt; decide) (by decide)

theorem toValue_toKey (k : Key) : k.toValue.toKey = some k := by
  cases k <;> rfl

theorem lua_next_toValue (t : Table) (k : Key) :
    lua_next t k.toValue =
      match Table.after t k with
      | none => Except.error Fault.luaPanic
      | some rest => Except.ok rest.head? := by
  cases k <;> rfl

theorem after_append (pre : Table) (k : Key) (v : Value) (s : Table)
    (h : k ∉ pre.map Prod.fst) : Table.after (pre ++ (k, v) :: s) k = some s := by
  induction pre with
  | nil => simp [Table.after]
  | cons e pre ih =>
    obtain ⟨k', v'⟩ := e
    simp only [List.map_cons, List.mem_cons, not_or] at h
    simp only [List.cons_append, Table.after]
    rw [if_neg (fun hc => h.1 hc.symm)]
    exact ih h.2

theorem countLoop_suffix (t : Table) (hnd : (t.map Prod.fst).Nodup) :
    ∀ (s pre : Table) (k : Key) (v : Value) (fuel : Nat) (ret : Int),
      t = pre ++ (k, v) :: s → s.length < fuel → 0 ≤ ret →
      ret + Int.ofNat s.length < 2147483648 →
      countLoop t fuel k.toValue ret = Except.ok (ret + Int.ofNat s.length) := by
  intro s
  induction s with
  | nil =>
    intro pre k v fuel ret ht hf _ _
    have hk : k ∉ pre.map Prod.fst := by
      rw [ht] at hnd
      simp only [List.map_append, List.map_cons] at hnd
      have := (List.nodup_append.mp hnd).2.2
      intro hc
      exact this hc (List.mem_cons_self _ _)
    cases fuel with
    | zero => simp at hf
    | succ fuel =>
      rw [countLoop, lua_next_toValue, ht, after_append pre k v [] hk]
      simp
  | cons e s ih =>
    intro pre k v fuel ret ht hf hret hsz
    obtain ⟨k2, v2⟩ := e
    have hk : k ∉ pre.map Prod.fst := by
      rw [ht] at hnd
      simp only [List.map_append, List.map_cons] at hnd
      have := (List.nodup_append.mp hnd).2.2
      intro hc
      exact this hc (List.mem_cons_self _ _)
    cases fuel with
    | zero => simp at hf
    | succ fuel =>
      rw [countLoop, lua_next_toValue]
      have hafter : Table.after t k = some ((k2, v2) :: s) := by
        rw [ht]; exact after_append pre k v _ hk
      rw [hafter]
      simp only [List.head?_cons]
      simp only [List.length_cons, Int.ofNat_eq_coe, Nat.cast_add, Nat.cast_one] at hsz hf
      have h32 : toInt32 (ret + 1) = ret + 1 := by
        apply toInt32_of_isInt; unfold isInt; omega
      rw [h32, ih (pre ++ [(k, v)]) k2 v2 fuel (ret + 1) (by rw [ht]; simp) (by omega)
        (by omega) (by simp only [Int.ofNat_eq_coe]; omega)]
      simp only [List.length_cons, Int.ofNat_eq_coe, Nat.cast_add, Nat.cast_one]
      congr 1
      omega

theorem countLoop_all (t : Table) (hnd : (t.map Prod.fst).Nodup)
    (hsz : t.length < 2147483648) :
    countLoop t (t.length + 1) Value.nil 0 = Except.ok (Int.ofNat t.length) := by
  cases t with
  | nil => rfl
  | cons e s =>
    obtain ⟨k, v⟩ := e
    rw [countLoop]
    simp only [lua_next, List.head?_cons]
    have h32 : toInt32 (0 + 1) = 1 := by decide
    rw [h32]
    have := countLoop_suffix ((k, v) :: s) hnd s [] k v (s.length + 1) 1 rfl (by omega)
      (by omega) (by simp only [List.length_cons, Int.ofNat_eq_coe] at hsz ⊢; omega)
    simp only [List.length_cons]
    rw [this]
    simp only [Int.ofNat_eq_coe, Nat.cast_add, Nat.cast_one]
    congr 1
    omega

/-- C5 as stated fails on a table with a hole.  For `a = { 10, nil, 30 }` the Lua length
operator returns the border 3 (the size of the array part), so `ArrayLength("a")` is 3,
while the number of contiguous entries from key 1 is 1. -/
theorem arrayLength_hole_differs :
    IsBorder holeTable (maxIndex holeTable) ∧
      specArrayLength holeTable = 1 ∧
      ArrayLength maxIndex docHole "a".data =
        Outcome.ok 3 { docHole with stack := [Value.table holeTable] } ∧
      ArrayLength maxIndex docHole "a".data ≠
        Outcome.ok (Int.ofNat (specArrayLength holeTable))
          { docHole with stack := [Value.table holeTable] } := by
  refine ⟨by unfold IsBorder; decide, by decide, rfl, ?_⟩
  have h : ArrayLength maxIndex docHole "a".data =
      Outcome.ok 3 { docHole with stack := [Value.table holeTable] } := rfl
  have h2 : specArrayLength holeTable = 1 := by decide
  rw [h, h2]
  intro hc
  injection hc with h3 _
  revert h3
  decide

/-- C5, amended: when the path `P` resolves to a table whose positive integer keys are
exactly `1..n` (an array part without holes), `ArrayLength(P)` is `n` when `n > 0` and
otherwise the number of all entries of the table; it is 0 exactly for the empty table. -/
theorem arrayLength_dense (objlen : Table → Nat) (L L1 : LuaState) (P : Str) (t : Table)
    (rest : List Value) (n : Nat)
    (hloc : LocateValue L P = Outcome.ok 0 L1)
    (htop : L1.stack = Value.table t :: rest)
    (hkeys : ∀ i : Int, 1 ≤ i → ((Table.get t (Key.int i)).isNil = false ↔ i ≤ Int.ofNat n))
    (hborder : IsBorder t (objlen t))
    (hnodup : (t.map Prod.fst).Nodup)
    (hsize : t.length < 2147483648) (hn : n < 2147483648) :
    ArrayLength objlen L P =
        Outcome.ok (if 0 < n then Int.ofNat n else Int.ofNat t.length) L1 ∧
      ((if 0 < n then Int.ofNat n else Int.ofNat t.length) = 0 ↔ t = []) := by
  have hlen : objlen t = n := by
    obtain ⟨h1, h2⟩ := hborder
    have e2 := hkeys (Int.ofNat (objlen t) + 1) (by simp only [Int.ofNat_eq_coe]; omega)
    have hgt : ¬ (Int.ofNat (objlen t) + 1 ≤ Int.ofNat n) := by
      intro hc
      have := e2.mpr hc
      rw [h2] at this
      exact absurd this (by decide)
    rcases h1 with h1 | h1
    · have e1 := hkeys 1 (le_refl 1)
      rw [h1] at hgt ⊢
      simp only [Int.ofNat_eq_coe] at hgt
      omega
    · by_cases hz : objlen t = 0
      · rw [hz] at hgt ⊢
        simp only [Int.ofNat_eq_coe] at hgt
        omega
      · have e1 := (hkeys (Int.ofNat (objlen t))
          (by simp only [Int.ofNat_eq_coe]; omega)).mp h1
        simp only [Int.ofNat_eq_coe] at hgt e1
        omega
  constructor
  · unfold ArrayLength
    rw [hloc]
    simp only [htop, hlen]
    by_cases hz : 0 < n
    · have h32 : toInt32 (Int.ofNat n) = Int.ofNat n := by
        apply toInt32_of_isInt; unfold isInt; simp only [Int.ofNat_eq_coe]; omega
      simp only [Int.ofNat_eq_coe] at h32
      simp [hz, h32]
    · simp [hz, countLoop_all t hnodup hsize]
  · by_cases hz : 0 < n
    · rw [if_pos hz]
      constructor
      · intro h0; simp only [Int.ofNat_eq_coe] at h0; omega
      · intro ht
        have e1 := (hkeys 1 (le_refl 1)).mpr (by simp only [Int.ofNat_eq_coe]; omega)
        rw [ht] at e1
        simp [Table.get, Value.isNil] at e1
    · rw [if_neg hz]
      constructor
      · intro h0
        simp only [Int.ofNat_eq_coe] at h0
        exact List.length_eq_zero.mp (by omega)
      · intro ht; subst ht; rfl

theorem arrayLength_dense_witness :
    ArrayLength (fun _ => 3) docArray "a".data =
        Outcome.ok 3
          { docArray with stack := [Value.table [(Key.int 1, Value.number 10),
            (Key.int 2, Value.number 20), (Key.int 3, Value.number 30)]] } ∧
      ((3 : Int) = 0 ↔
        [(Key.int 1, Value.number 10), (Key.int 2, Value.number 20),
          (Key.int 3, Value.number 30)] = []) :=
  arrayLength_dense (fun _ => 3) docArray
    { docArray with stack := [Value.table [(Key.int 1, Value.number 10),
        (Key.int 2, Value.number 20), (Key.int 3, Value.number 30)]] }
    "a".data
    [(Key.int 1, Value.number 10), (Key.int 2, Value.number 20), (Key.int 3, Value.number 30)]
    [] 3 rfl rfl
    (by
      intro i hi
      by_cases h1 : i = 1
      · subst h1; decide
      by_cases h2 : i = 2
      · subst h2; decide
      by_cases h3 : i = 3
      · subst h3; decide
      have hne : ¬ i ≤ Int.ofNat 3 := by simp only [Int.ofNat_eq_coe]; omega
      simp [Table.get, h1, h2, h3, eq_comm, Value.isNil, hne]
      simp only [Int.ofNat_eq_coe] at hne
      omega)
    (by unfold IsBorder; decide) (by decide) (by decide) (by decide)

theorem find_set_self (m : Settings) (k v : Str) : (Settings.set m k v).find k = some v := by
  induction m with
  | nil => simp [Settings.set, Settings.find]
  | cons e rest ih =>
    obtain ⟨k', v'⟩ := e
    unfold Settings.set
    by_cases h1 : k' = k
    · simp [h1, Settings.find]
    · by_cases h2 : strLt k k' = true
      · simp [h1, h2, Settings.find]
      · simp [h1, h2, Settings.find, ih]

theorem find_set_other (m : Settings) (k v k2 : Str) (h : k2 ≠ k) :
    (Settings.set m k v).find k2 = m.find k2 := by
  induction m with
  | nil => simp [Settings.set, Settings.find, Ne.symm h]
  | cons e rest ih =>
    obtain ⟨k', v'⟩ := e
    unfold Settings.set
    by_cases h1 : k' = k
    · subst h1
      simp [Settings.find, Ne.symm h]
    · by_cases h2 : strLt k k' = true
      · simp [h1, h2, Settings.find, Ne.symm h]
      · simp only [h1, h2, if_false, Settings.find, ih, Bool.false_eq_true]

theorem find_set (m : Settings) (k v k2 : Str) :
    (Settings.set m k v).find k2 = if k2 = k then some v else m.find k2 := by
  by_cases h : k2 = k
  · subst h; simp [find_set_self]
  · simp [h, find_set_other m k v k2 h]

/-- C6: the chunk `setString` runs is `x=hello`, which assigns the value of the global
variable `hello` (nil here) to `x`; `string("x", "")` then returns the default `""`,
not `"hello"`, while the overlay records `"hello"`. -/
theorem setString_then_string_default :
    (setString freshInstance "x".data "hello".data).mSettings.find "x".data
        = some "hello".data ∧
      (setString freshInstance "x".data "hello".data).L = some freshState ∧
      string freshState "x".data "".data =
        Outcome.ok "".data { freshState with stack := [Value.nil] } :=
  ⟨rfl, rfl, rfl⟩

theorem to_string_samples :
    to_string 42 = "42".data ∧ to_string (-120) = "-120".data ∧ to_string 0 = "0".data := by
  decide

/-- C7: after `setBoolean`, `setInteger` or `setString` on `name` the overlay maps
`name` to `"true"`/`"false"`, to the decimal rendering of the integer, or to the string,
and the value under every other key is what it was. -/
theorem setters_write_overlay (c : Instance) (name k : Str) (b : Bool) (i : Int) (s : Str) :
    (setBoolean c name b).mSettings.find k =
        (if k = name then some (if b then "true".data else "false".data)
         else c.mSettings.find k) ∧
      (setInteger c name i).mSettings.find k =
        (if k = name then some (to_string i) else c.mSettings.find k) ∧
      (setString c name s).mSettings.find k =
        (if k = name then some s else c.mSettings.find k) :=
  ⟨find_set _ _ _ _, find_set _ _ _ _, find_set _ _ _ _⟩

theorem firstIndex_append (p : Char → Bool) (a b : Str) (h : ∀ c ∈ a, p c = false) :
    ∀ i, firstIndex p (a ++ b) i = firstIndex p b (i + a.length) := by
  induction a with
  | nil => intro i; simp
  | cons c cs ih =>
    intro i
    have hc : p c = false := h c (List.mem_cons_self _ _)
    rw [List.cons_append, firstIndex, hc]
    simp only [Bool.false_eq_true, if_false]
    rw [ih (fun x hx => h x (List.mem_cons_of_mem _ hx))]
    simp only [List.length_cons]
    congr 1
    omega

theorem lastIndex_append (p : Char → Bool) (a b : Str) :
    ∀ i acc, lastIndex p (a ++ b) i acc = lastIndex p b (i + a.length) (lastIndex p a i acc) := by
  induction a with
  | nil => intro i acc; simp [lastIndex]
  | cons c cs ih =>
    intro i acc
    rw [List.cons_append, lastIndex, ih, lastIndex]
    simp only [List.length_cons]
    congr 1
    omega

theorem lastIndex_none (p : Char → Bool) (b : Str) (h : ∀ c ∈ b, p c = false) :
    ∀ i acc, lastIndex p b i acc = acc := by
  induction b with
  | nil => intro i acc; rfl
  | cons c cs ih =>
    intro i acc
    have hc : p c = false := h c (List.mem_cons_self _ _)
    rw [lastIndex, hc]
    simp only [Bool.false_eq_true, if_false]
    exact ih (fun x hx => h x (List.mem_cons_of_mem _ hx)) _ _

theorem lastIndex_snoc (p : Char → Bool) (a : Str) (x : Char) (hx : p x = true) (i : Nat)
    (acc : Option Nat) : lastIndex p (a ++ [x]) i acc = some (i + a.length) := by
  rw [lastIndex_append]
  simp [lastIndex, hx]

theorem notWs_of {c : Char} (h : whitespace.contains c = false) :
    (fun x => !whitespace.contains x) c = true := by
  show (!whitespace.contains c) = true
  rw [h]; rfl

theorem isTrimmed_cases {s : Str} (h : isTrimmed s = true) :
    s = [] ∨ ∃ a init l, s = init ++ [l] ∧ s.head? = some a ∧
      whitespace.contains a = false ∧ whitespace.contains l = false := by
  cases s with
  | nil => exact Or.inl rfl
  | cons c cs =>
    right
    have hne : c :: cs ≠ [] := by simp
    have hl := List.dropLast_append_getLast hne
    refine ⟨c, (c :: cs).dropLast, (c :: cs).getLast hne, hl.symm, rfl, ?_, ?_⟩
    · simp only [isTrimmed, List.head?_cons, List.getLast?_eq_getLast _ hne] at h
      simp only [Bool.and_eq_true, Bool.not_eq_true'] at h
      exact h.1
    · simp only [isTrimmed, List.head?_cons, List.getLast?_eq_getLast _ hne] at h
      simp only [Bool.and_eq_true, Bool.not_eq_true'] at h
      exact h.2

theorem ltrim_of_isTrimmed {s : Str} (h : isTrimmed s = true) : ltrim s whitespace = s := by
  rcases isTrimmed_cases h with h0 | ⟨a, init, l, _, hhead, ha, _⟩
  · subst h0; rfl
  · cases s with
    | nil => rfl
    | cons c cs =>
      simp only [List.head?_cons, Option.some.injEq] at hhead
      subst hhead
      unfold ltrim find_first_not_of
      rw [firstIndex, if_pos (notWs_of ha)]
      rfl

theorem rtrim_of_isTrimmed {s : Str} (h : isTrimmed s = true) : rtrim s whitespace = s := by
  rcases isTrimmed_cases h with h0 | ⟨a, init, l, hs, _, _, hl⟩
  · subst h0; rfl
  · subst hs
    unfold rtrim find_last_not_of
    rw [lastIndex_snoc _ init l (notWs_of hl)]
    simp [sizeSucc]

theorem trim_key {k : Str} (h : isTrimmed k = true) : trim (k ++ [' ']) whitespace = k := by
  have hr : rtrim (k ++ [' ']) whitespace = k := by
    rcases isTrimmed_cases h with h0 | ⟨a, init, l, hs, _, _, hl⟩
    · subst h0; rfl
    · subst hs
      unfold rtrim find_last_not_of
      rw [lastIndex_append, lastIndex_snoc _ init l (notWs_of hl)]
      have : lastIndex (fun x => !whitespace.contains x) [' '] (0 + (init ++ [l]).length)
          (some (0 + init.length)) = some (0 + init.length) :=
        lastIndex_none _ _ (by intro c hc; simp at hc; subst hc; decide) _ _
      rw [this]
      simp only [sizeSucc, Nat.zero_add]
      exact List.take_left' (by simp)
  unfold trim
  rw [hr]
  exact ltrim_of_isTrimmed h

theorem trim_value {v : Str} (h : isTrimmed v = true) : trim (' ' :: v) whitespace = v := by
  rcases isTrimmed_cases h with h0 | ⟨a, init, l, hs, hhead, ha, hl⟩
  · subst h0; rfl
  · have hr : rtrim (' ' :: v) whitespace = ' ' :: v := by
      subst hs
      unfold rtrim find_last_not_of
      have e : ' ' :: (init ++ [l]) = (' ' :: init) ++ [l] := rfl
      rw [e, lastIndex_snoc _ (' ' :: init) l (notWs_of hl)]
      simp only [sizeSucc, Nat.zero_add]
      exact List.take_of_length_le (by simp)
    unfold trim
    rw [hr]
    cases v with
    | nil => simp at hhead
    | cons c cs =>
      simp only [List.head?_cons, Option.some.injEq] at hhead
      subst hhead
      have hsp : ¬ ((fun x => !whitespace.contains x) ' ' = true) := by decide
      unfold ltrim find_first_not_of
      rw [firstIndex, if_neg hsp, firstIndex, if_pos (notWs_of ha)]
      rfl

theorem not_contains {s : Str} {x : Char} (h : s.contains x = false) : ∀ c ∈ s, c ≠ x := by
  intro c hc hcx
  subst hcx
  have : s.contains c = true := by simpa using hc
  rw [this] at h
  exact absurd h (by decide)

theorem isPlainEntry_parts {e : Str × Str} (h : isPlainEntry e = true) :
    e.1.contains '=' = false ∧ e.1.contains '\n' = false ∧ e.2.contains '\n' = false ∧
      isTrimmed e.1 = true ∧ isTrimmed e.2 = true := by
  simp only [isPlainEntry, Bool.and_eq_true, Bool.not_eq_true'] at h
  exact ⟨h.1.1.1.1, h.1.1.1.2, h.1.1.2, h.1.2, h.2⟩

theorem find_settingLine (k v : Str) (h : k.contains '=' = false) :
    find (k ++ [' ', '=', ' '] ++ v) '=' = some (k.length + 1) := by
  unfold find
  rw [List.append_assoc, firstIndex_append _ k _
    (fun c hc => by simpa using not_contains h c hc)]
  simp [firstIndex]

theorem settingsLine_settingLine (m : Settings) (e : Str × Str)
    (h : isPlainEntry e = true) :
    settingsLine m (settingLine e) = Settings.set m e.1 e.2 := by
  obtain ⟨k, v⟩ := e
  obtain ⟨h1, _, _, h4, h5⟩ := isPlainEntry_parts h
  simp only at h1 h4 h5
  unfold settingsLine settingLine
  simp only [find_settingLine k v h1, substr, sizeSucc, List.drop_zero]
  have e1 : List.take (k.length + 1) (k ++ [' ', '=', ' '] ++ v) = k ++ [' '] := by
    have : k ++ [' ', '=', ' '] ++ v = (k ++ [' ']) ++ ('=' :: ' ' :: v) := by simp
    rw [this]
    exact List.take_left' (by simp)
  have e2 : List.drop (k.length + 1 + 1) (k ++ [' ', '=', ' '] ++ v) = ' ' :: v := by
    have : k ++ [' ', '=', ' '] ++ v = (k ++ [' ', '=']) ++ (' ' :: v) := by simp
    rw [this]
    exact List.drop_left' (by simp)
  rw [e1, e2, trim_key h4, trim_value h5]

theorem getlines_line (w : Str) (h : ∀ c ∈ w, c ≠ '\n') :
    ∀ (rest cur : Str), getlines (w ++ '\n' :: rest) cur = (cur ++ w) :: getlines rest [] := by
  induction w with
  | nil => intro rest cur; simp [getlines]
  | cons c cs ih =>
    intro rest cur
    have hc : c ≠ '\n' := h c (List.mem_cons_self _ _)
    rw [List.cons_append, getlines, if_neg hc,
      ih (fun x hx => h x (List.mem_cons_of_mem _ hx))]
    simp

theorem getlines_Save (M : Settings) (h : ∀ e ∈ M, isPlainEntry e = true) :
    getlines (Save M) [] = M.map settingLine := by
  induction M with
  | nil => rfl
  | cons e rest ih =>
    obtain ⟨_, h2, h3, _, _⟩ := isPlainEntry_parts (h e (List.mem_cons_self _ _))
    have hs : Save (e :: rest) = settingLine e ++ '\n' :: Save rest := by
      simp [Save, settingLine, List.flatMap_cons]
    have hnl : ∀ c ∈ settingLine e, c ≠ '\n' := by
      intro c hc
      simp only [settingLine, List.mem_append, List.mem_cons, List.mem_singleton,
        List.not_mem_nil, or_false] at hc
      rcases hc with (hc | hc | hc | hc) | hc
      · exact not_contains h2 c hc
      · subst hc; decide
      · subst hc; decide
      · subst hc; decide
      · exact not_contains h3 c hc
    rw [hs, getlines_line _ hnl, List.nil_append,
      ih (fun x hx => h x (List.mem_cons_of_mem _ hx))]
    rfl

theorem reloadSettings_Save (M m : Settings) (h : ∀ e ∈ M, isPlainEntry e = true) :
    reloadSettings m (Save M) = M.foldl (fun acc e => Settings.set acc e.1 e.2) m := by
  unfold reloadSettings
  rw [getlines_Save M h, List.foldl_map]
  induction M generalizing m with
  | nil => rfl
  | cons e rest ih =>
    simp only [List.foldl_cons]
    rw [settingsLine_settingLine m e (h e (List.mem_cons_self _ _))]
    exact ih _ (fun x hx => h x (List.mem_cons_of_mem _ hx))

theorem find_none_of_not_key (M : Settings) (k : Str) (h : k ∉ M.map Prod.fst) :
    M.find k = none := by
  induction M with
  | nil => rfl
  | cons e rest ih =>
    obtain ⟨k', v'⟩ := e
    simp only [List.map_cons, List.mem_cons, not_or] at h
    simp only [Settings.find]
    rw [if_neg (fun hc => h.1 hc.symm)]
    exact ih h.2

theorem find_foldl_set (M : Settings) (hnd : (M.map Prod.fst).Nodup) :
    ∀ (m : Settings) (k : Str),
      (M.foldl (fun acc e => Settings.set acc e.1 e.2) m).find k =
        match M.find k with
        | some v => some v
        | none => m.find k := by
  induction M with
  | nil => intro m k; rfl
  | cons e rest ih =>
    intro m k
    obtain ⟨k', v'⟩ := e
    simp only [List.map_cons, List.nodup_cons] at hnd
    simp only [List.foldl_cons]
    rw [ih hnd.2]
    by_cases hk : k' = k
    · subst hk
      simp [Settings.find, find_none_of_not_key rest k' hnd.1, find_set_self]
    · simp only [Settings.find, if_neg hk]
      rw [find_set_other m k' v' k (fun hc => hk hc.symm)]

/-- C8 as stated fails: the map with the single entry `"a=b" ↦ "c"` is written as the line
`a=b = c`, which is read back as `"a" ↦ "b = c"`. -/
theorem save_reload_loses_entry :
    reloadSettings [] (Save [("a=b".data, "c".data)]) = [("a".data, "b = c".data)] ∧
      (reloadSettings [] (Save [("a=b".data, "c".data)])).find "a=b".data ≠
        Settings.find [("a=b".data, "c".data)] "a=b".data := by
  decide

/-- C8, amended: for an overlay map with distinct keys in which no key contains `=` and
no key or value contains a newline or has leading or trailing whitespace, re-parsing the
text written by `Save` into an empty overlay gives a map with the same value under every
key. -/
theorem save_reload_same_entries (M : Settings) (hnd : (M.map Prod.fst).Nodup)
    (hplain : ∀ e ∈ M, isPlainEntry e = true) (k : Str) :
    (reloadSettings [] (Save M)).find k = M.find k := by
  rw [reloadSettings_Save M [] hplain, find_foldl_set M hnd [] k]
  cases M.find k <;> rfl

theorem save_reload_same_entries_witness :
    (reloadSettings [] (Save [("name".data, "a = b".data), ("pid.p".data, "0.5".data)])).find
        "name".data =
      Settings.find [("name".data, "a = b".data), ("pid.p".data, "0.5".data)] "name".data :=
  save_reload_same_entries [("name".data, "a = b".data), ("pid.p".data, "0.5".data)]
    (by decide) (by decide) "name".data

theorem descend_scalar : ∀ (pre : List Str) (k : Str) (post : List Str) (t : Table)
    (L : LuaState) (v : Value),
    pre ≠ [] → follow t pre = some v →
    ((∃ n, v = Value.number n) ∨ (∃ b, v = Value.boolean b)) →
    descend (pre ++ k :: post) L (Value.table t) = Outcome.fault Fault.luaPanic := by
  intro pre
  induction pre with
  | nil => intro k post t L v h; exact absurd rfl h
  | cons a tl ih =>
    intro k post t L v _ hf hv
    cases tl with
    | nil =>
      simp only [follow, Option.some.injEq] at hf
      rw [List.cons_append, List.nil_append, descend]
      simp only [lua_getfield, hf]
      rcases hv with ⟨n, hn⟩ | ⟨b, hb⟩
      · subst hn; simp [Value.isNil, descend, lua_getfield]
      · subst hb; simp [Value.isNil, descend, lua_getfield]
    | cons a2 tl2 =>
      simp only [follow] at hf
      cases hg : Table.get t (Key.str a) with
      | table t' =>
        rw [hg] at hf
        rw [List.cons_append, descend]
        simp only [lua_getfield, hg, Value.isNil]
        exact ih k post t' _ v (by simp) hf hv
      | nil => rw [hg] at hf; simp at hf
      | boolean b => rw [hg] at hf; simp at hf
      | number n => rw [hg] at hf; simp at hf
      | string s => rw [hg] at hf; simp at hf
      | function f => rw [hg] at hf; simp at hf

/-- A dotted path of names that goes on after a segment resolving to a number or a
boolean ends in the Lua error "attempt to index", outside any protected call. -/
theorem LocateValue_scalar_panics (L : LuaState) (pre : List Str) (k : Str)
    (post : List Str) (v : Value) (hn : ∀ x ∈ pre ++ k :: post, isName x = true)
    (hpre : pre ≠ []) (hf : follow L.globals pre = some v)
    (hv : (∃ n, v = Value.number n) ∨ (∃ b, v = Value.boolean b)) :
    LocateValue L (dotted (pre ++ k :: post)) = Outcome.fault Fault.luaPanic := by
  rw [LocateValue_dotted L _ (by simp) hn]
  exact descend_scalar pre k post L.globals L v hpre hf hv

/-- C10: with `x = 5` and `flag = true`, `LocateValue("x.y")` and `LocateValue("flag.y")`
end in an unprotected Lua error instead of returning not-found, so `integer("x.y", 7)`
does not return its default; with `s = "hello"`, `LocateValue("s.len")` indexes the
string through its metatable and reports the function `string.len` as found. -/
theorem locate_into_scalar :
    LocateValue docScalars "x.y".data = Outcome.fault Fault.luaPanic ∧
      LocateValue docScalars "flag.y".data = Outcome.fault Fault.luaPanic ∧
      integer (fun _ => 0) docScalars "x.y".data 7 = Outcome.fault Fault.luaPanic ∧
      LocateValue docScalars "s.len".data =
        Outcome.ok 0
          { docScalars with stack := [Value.function 1, Value.string "hello".data] } :=
  ⟨rfl, rfl, rfl, rfl⟩

/-- C9: with `gyroscopes = { g = 5 }` and a gyroscope registered as `g`, `Apply` ends in
an unprotected Lua error while reading `gyroscopes.g.axis_swap.x`; no `setAxisSwap` call
is issued. -/
theorem apply_scalar_entry_panics :
    Apply registryG (fun _ => 0) docScalarDevice = Outcome.fault Fault.luaPanic :=
  rfl

/-- On a document whose device entries are tables `Apply` calls `setAxisSwap` for the
registered key only, with the integers under `axis_swap` and 0 for the missing ones. -/
theorem apply_sample :
    ∃ L', Apply registryG (fun _ => 0) docDevices =
      Outcome.ok [{ kind := SensorKind.gyroscope, name := "g".data, swap := [2, -1, 0, 0] }]
        L' :=
  ⟨_, rfl⟩

theorem leadingDigits_append (s t : Str) (h : ∀ c ∈ s, isDigit c = true) :
    ∀ a, leadingDigits (s ++ t) a = leadingDigits t (leadingDigits s a) := by
  induction s with
  | nil => intro a; rfl
  | cons c cs ih =>
    intro a
    have hc := h c (List.mem_cons_self _ _)
    simp only [List.cons_append, leadingDigits, hc, if_true]
    exact ih (fun x hx => h x (List.mem_cons_of_mem _ hx)) _

theorem digitChar_digit (d : Nat) (h : d < 10) :
    isDigit (Nat.digitChar d) = true ∧ (Nat.digitChar d).toNat - 48 = d := by
  interval_cases d <;> decide

theorem toDigitsCore_value : ∀ (fuel n : Nat) (acc : Str), n < fuel →
    ∃ s, Nat.toDigitsCore 10 fuel n acc = s ++ acc ∧ s ≠ [] ∧ s.length ≤ fuel ∧
      (∀ c ∈ s, isDigit c = true) ∧ ∀ a, leadingDigits s a = a * 10 ^ s.length + n := by
  intro fuel
  induction fuel with
  | zero => intro n acc h; omega
  | succ fuel ih =>
    intro n acc hn
    obtain ⟨hd, hv⟩ := digitChar_digit (n % 10) (Nat.mod_lt _ (by decide))
    by_cases h0 : n / 10 = 0
    · refine ⟨[Nat.digitChar (n % 10)], ?_, by simp, by simp, ?_, ?_⟩
      · simp [Nat.toDigitsCore, h0]
      · intro c hc; simp at hc; subst hc; exact hd
      · intro a
        simp only [leadingDigits, hd, if_true, hv, List.length_singleton, pow_one]
        omega
    · obtain ⟨s, hs, _, hlen, hdig, hval⟩ :=
        ih (n / 10) (Nat.digitChar (n % 10) :: acc) (by omega)
      refine ⟨s ++ [Nat.digitChar (n % 10)], ?_, by simp, by simp; omega, ?_, ?_⟩
      · simp [Nat.toDigitsCore, h0, hs]
      · intro c hc
        simp only [List.mem_append, List.mem_singleton] at hc
        rcases hc with hc | hc
        · exact hdig c hc
        · subst hc; exact hd
      · intro a
        rw [leadingDigits_append s _ hdig, hval]
        simp only [leadingDigits, hd, if_true, hv, List.length_append, List.length_singleton,
          pow_succ]
        have := Nat.div_add_mod n 10
        nlinarith [Nat.div_add_mod n 10]

/-- The usual decimal rendering of an index `i` below `2^31` is a decimal writing of `i`
that fits the token buffer: it is not empty, holds digits only, is shorter than 128
bytes, and its value is `i`. -/
theorem toDigits_decimal (i : Nat) (hi : i < 2147483648) :
    Nat.toDigits 10 i ≠ [] ∧ (∀ c ∈ Nat.toDigits 10 i, isDigit c = true) ∧
      (Nat.toDigits 10 i).length < 128 ∧ leadingDigits (Nat.toDigits 10 i) 0 = i := by
  obtain ⟨s, hs, hne, _, hdig, hval⟩ := toDigitsCore_value (i + 1) i [] (by omega)
  have hlen : (Nat.toDigitsCore 10 (i + 1) i []).length ≤ 10 :=
    Nat.toDigitsCore_length 10 (by decide) (i + 1) i 10 (by omega) (by decide)
  have : Nat.toDigits 10 i = s := by
    unfold Nat.toDigits; rw [hs]; simp
  rw [hs, List.append_nil] at hlen
  rw [this]
  exact ⟨hne, hdig, by omega, by rw [hval]; simp⟩

theorem keysLoop_suffix (t : Table) (hnd : (t.map Prod.fst).Nodup)
    (hstr : ∀ e ∈ t, ∃ s, e.1 = Key.str s ∧ ∀ c ∈ s, c ≠ Char.ofNat 0) :
    ∀ (s pre : Table) (k : Str) (v : Value) (fuel : Nat) (acc : List Str),
      t = pre ++ (Key.str k, v) :: s → s.length < fuel →
      keysLoop t fuel (Value.string k) acc = Except.ok (acc ++ stringKeys s) := by
  intro s
  induction s with
  | nil =>
    intro pre k v fuel acc ht hf
    have hk : Key.str k ∉ pre.map Prod.fst := by
      rw [ht] at hnd
      simp only [List.map_append, List.map_cons] at hnd
      have := (List.nodup_append.mp hnd).2.2
      intro hc
      exact this hc (List.mem_cons_self _ _)
    cases fuel with
    | zero => simp at hf
    | succ fuel =>
      have hn := lua_next_toValue t (Key.str k)
      simp only [Key.toValue] at hn
      rw [keysLoop, hn, ht, after_append pre _ v [] hk]
      simp [stringKeys]
  | cons e s ih =>
    intro pre k v fuel acc ht hf
    obtain ⟨k2, v2⟩ := e
    have hk : Key.str k ∉ pre.map Prod.fst := by
      rw [ht] at hnd
      simp only [List.map_append, List.map_cons] at hnd
      have := (List.nodup_append.mp hnd).2.2
      intro hc
      exact this hc (List.mem_cons_self _ _)
    obtain ⟨s2, hs2, hnul⟩ := hstr (k2, v2) (by rw [ht]; simp)
    simp only at hs2
    subst hs2
    cases fuel with
    | zero => simp at hf
    | succ fuel =>
      have hn := lua_next_toValue t (Key.str k)
      simp only [Key.toValue] at hn
      rw [keysLoop, hn, ht, after_append pre _ v _ hk]
      simp only [List.head?_cons, Key.toValue, lua_tolstring, c_str_eq_self hnul]
      rw [← ht, ih (pre ++ [(Key.str k, v)]) s2 v2 fuel (acc ++ [s2]) (by rw [ht]; simp)
        (by simp only [List.length_cons] at hf; omega)]
      simp [stringKeys]

theorem collectionKeys_ok (L : LuaState) (name : Str) (t : Table)
    (hg : Table.get L.globals (Key.str name) = Value.table t)
    (hnd : (t.map Prod.fst).Nodup)
    (hstr : ∀ e ∈ t, ∃ s, e.1 = Key.str s ∧ ∀ c ∈ s, c ≠ Char.ofNat 0) :
    collectionKeys L name = Except.ok (stringKeys t) := by
  unfold collectionKeys
  rw [hg]
  cases t with
  | nil => rfl
  | cons e s =>
    obtain ⟨k, v⟩ := e
    obtain ⟨s1, hs1, hnul⟩ := hstr (k, v) (List.mem_cons_self _ _)
    simp only at hs1
    subst hs1
    simp only [List.length_cons]
    rw [keysLoop]
    simp only [lua_next, List.head?_cons, Key.toValue, lua_tolstring, c_str_eq_self hnul]
    rw [keysLoop_suffix _ hnd hstr s [] s1 v (s.length + 1) ([] ++ [s1]) rfl (by omega)]
    simp [stringKeys]

theorem get_append (pre : Table) (k : Key) (v : Value) (s : Table)
    (h : k ∉ pre.map Prod.fst) : Table.get (pre ++ (k, v) :: s) k = v := by
  induction pre with
  | nil => simp [Table.get]
  | cons e pre ih =>
    obtain ⟨k', v'⟩ := e
    simp only [List.map_cons, List.mem_cons, not_or] at h
    simp only [List.cons_append, Table.get]
    rw [if_neg (fun hc => h.1 hc.symm)]
    exact ih h.2

theorem isNil_table (t : Table) : (Value.table t).isNil = false := rfl

theorem integer_axis (str2int : Str → Int) (L : LuaState) (coll it ax : Str) (t d : Table)
    (hc : isName coll = true) (hi : isName it = true) (hx : isName ax = true)
    (hg : Table.get L.globals (Key.str coll) = Value.table t)
    (he : Table.get t (Key.str it) = Value.table d)
    (hs : Table.get d (Key.str "axis_swap".data) = Value.nil ∨
      ∃ a, Table.get d (Key.str "axis_swap".data) = Value.table a) :
    ∃ L', integer str2int L (coll ++ ['.'] ++ it ++ ('.' :: "axis_swap".data ++ '.' :: ax)) 0 =
        Outcome.ok (axisValue str2int (Value.table d) ax) L' ∧
      L'.globals = L.globals ∧ L'.strlib = L.strlib := by
  have hpath : coll ++ ['.'] ++ it ++ ('.' :: "axis_swap".data ++ '.' :: ax) =
      dotted [coll, it, "axis_swap".data, ax] := by
    simp [dotted, List.append_assoc]
  have hnames : ∀ k ∈ [coll, it, "axis_swap".data, ax], isName k = true := by
    intro k hk
    simp only [List.mem_cons, List.mem_singleton, List.not_mem_nil, or_false] at hk
    rcases hk with hk | hk | hk | hk <;> subst hk
    · exact hc
    · exact hi
    · decide
    · exact hx
  have hloc := LocateValue_dotted L [coll, it, "axis_swap".data, ax] (by simp) hnames
  rw [hpath]
  unfold integer
  rw [hloc]
  rcases hs with hs | ⟨a, hs⟩
  · refine ⟨{ L with stack := [Value.nil, Value.table d, Value.table t] ++ L.stack }, ?_,
      rfl, rfl⟩
    simp [descend, lua_getfield, hg, he, hs, Value.isNil, axisValue]
  · refine ⟨{ L with stack := [Table.get a (Key.str ax), Value.table a, Value.table d,
      Value.table t] ++ L.stack }, ?_, rfl, rfl⟩
    by_cases hv : (Table.get a (Key.str ax)).isNil = true
    · simp [descend, lua_getfield, hg, he, hs, isNil_table, axisValue, hv]
    · simp [descend, lua_getfield, hg, he, hs, isNil_table, axisValue, hv]

theorem applyLoop_ok (registry : SensorKind → Str → Bool) (str2int : Str → Int)
    (kind : SensorKind) (coll : Str) (G t : Table) (hc : isName coll = true)
    (hg : Table.get G (Key.str coll) = Value.table t)
    (hd : DeviceCollection registry kind t) :
    ∀ (s pre : Table), t = pre ++ s → ∀ (L : LuaState) (calls : List AxisSwapCall),
      L.globals = G →
      ∃ L', applyLoop registry str2int kind coll (stringKeys s) L calls =
          Outcome.ok (calls ++ expectedCalls registry str2int kind s) L' ∧
        L'.globals = G := by
  intro s
  induction s with
  | nil => intro pre _ L calls hL; exact ⟨L, by simp [stringKeys, applyLoop, expectedCalls], hL⟩
  | cons e s ih =>
    intro pre ht L calls hL
    obtain ⟨k, v⟩ := e
    obtain ⟨s1, hs1, _, hreg⟩ := hd.2 (k, v) (by rw [ht]; simp)
    simp only at hs1 hreg
    subst hs1
    have hk : Key.str s1 ∉ pre.map Prod.fst := by
      have hnd := hd.1
      rw [ht] at hnd
      simp only [List.map_append, List.map_cons] at hnd
      have := (List.nodup_append.mp hnd).2.2
      intro hc'
      exact this hc' (List.mem_cons_self _ _)
    have hnext := ih (pre ++ [(Key.str s1, v)]) (by rw [ht]; simp)
    rw [stringKeys, applyLoop, expectedCalls]
    by_cases hr : registry kind s1 = true
    · obtain ⟨hname, d, hv, hax⟩ := hreg hr
      subst hv
      have hget : Table.get t (Key.str s1) = Value.table d := by
        rw [ht]; exact get_append pre _ _ s hk
      obtain ⟨L1, h1, g1, _⟩ := integer_axis str2int L coll s1 "x".data t d hc hname
        (by decide) (by rw [hL]; exact hg) hget hax
      obtain ⟨L2, h2, g2, _⟩ := integer_axis str2int L1 coll s1 "y".data t d hc hname
        (by decide) (by rw [g1, hL]; exact hg) hget hax
      obtain ⟨L3, h3, g3, _⟩ := integer_axis str2int L2 coll s1 "z".data t d hc hname
        (by decide) (by rw [g2, g1, hL]; exact hg) hget hax
      have h1' : integer str2int L (coll ++ ['.'] ++ s1 ++ ".axis_swap.x".data) 0 =
          Outcome.ok (axisValue str2int (Value.table d) "x".data) L1 := h1
      have h2' : integer str2int L1 (coll ++ ['.'] ++ s1 ++ ".axis_swap.y".data) 0 =
          Outcome.ok (axisValue str2int (Value.table d) "y".data) L2 := h2
      have h3' : integer str2int L2 (coll ++ ['.'] ++ s1 ++ ".axis_swap.z".data) 0 =
          Outcome.ok (axisValue str2int (Value.table d) "z".data) L3 := h3
      rw [if_pos hr, if_pos hr]
      generalize coll ++ ['.'] ++ s1 ++ ".axis_swap.x".data = pathx at h1' ⊢
      generalize coll ++ ['.'] ++ s1 ++ ".axis_swap.y".data = pathy at h2' ⊢
      generalize coll ++ ['.'] ++ s1 ++ ".axis_swap.z".data = pathz at h3' ⊢
      rw [h1']
      simp only
      rw [h2']
      simp only
      rw [h3']
      simp only
      obtain ⟨L4, h4, g4⟩ := hnext L3
        (calls ++ [AxisSwapCall.mk kind s1 [axisValue str2int (Value.table d) "x".data,
          axisValue str2int (Value.table d) "y".data,
          axisValue str2int (Value.table d) "z".data, 0]])
        (by rw [g3, g2, g1, hL])
      exact ⟨L4, by rw [h4]; simp, g4⟩
    · rw [if_neg hr, if_neg hr]
      exact hnext L calls hL

/-- On a document whose three collections are tables with distinct string keys, and in
which every registered key is a name holding a table whose `axis_swap` is absent or a
table, `Apply` returns and issues exactly one `setAxisSwap` call per registered key
(gyroscopes first, then accelerometers, then magnetometers), with the integers under
`axis_swap` and 0 for the missing ones; keys without a device cause no call. -/
theorem apply_device_collections (registry : SensorKind → Str → Bool) (str2int : Str → Int)
    (L : LuaState) (ta tg tm : Table)
    (ha : Table.get L.globals (Key.str "accelerometers".data) = Value.table ta)
    (hg : Table.get L.globals (Key.str "gyroscopes".data) = Value.table tg)
    (hm : Table.get L.globals (Key.str "magnetometers".data) = Value.table tm)
    (hca : DeviceCollection registry SensorKind.accelerometer ta)
    (hcg : DeviceCollection registry SensorKind.gyroscope tg)
    (hcm : DeviceCollection registry SensorKind.magnetometer tm) :
    ∃ L', Apply registry str2int L =
      Outcome.ok (expectedCalls registry str2int SensorKind.gyroscope tg ++
        expectedCalls registry str2int SensorKind.accelerometer ta ++
        expectedCalls registry str2int SensorKind.magnetometer tm) L' := by
  have strs : ∀ {kind : SensorKind} {t : Table}, DeviceCollection registry kind t →
      ∀ e ∈ t, ∃ s, e.1 = Key.str s ∧ ∀ c ∈ s, c ≠ Char.ofNat 0 := by
    intro kind t h e he
    obtain ⟨s, h1, h2, _⟩ := h.2 e he
    exact ⟨s, h1, h2⟩
  unfold Apply
  rw [collectionKeys_ok L _ ta ha hca.1 (strs hca), collectionKeys_ok L _ tg hg hcg.1 (strs hcg),
    collectionKeys_ok L _ tm hm hcm.1 (strs hcm)]
  simp only
  obtain ⟨L1, h1, g1⟩ := applyLoop_ok registry str2int SensorKind.gyroscope "gyroscopes".data
    L.globals tg (by decide) hg hcg tg [] rfl L [] rfl
  obtain ⟨L2, h2, g2⟩ := applyLoop_ok registry str2int SensorKind.accelerometer
    "accelerometers".data L.globals ta (by decide) ha hca ta [] rfl L1
    ([] ++ expectedCalls registry str2int SensorKind.gyroscope tg) g1
  obtain ⟨L3, h3, _⟩ := applyLoop_ok registry str2int SensorKind.magnetometer
    "magnetometers".data L.globals tm (by decide) hm hcm tm [] rfl L2
    ([] ++ expectedCalls registry str2int SensorKind.gyroscope tg ++
      expectedCalls registry str2int SensorKind.accelerometer ta) g2
  rw [h1]
  simp only
  rw [h2]
  simp only
  rw [h3]
  exact ⟨L3, by simp⟩

theorem toDigits_isDigit (n : Nat) : ∀ c ∈ Nat.toDigits 10 n, isDigit c = true := by
  obtain ⟨s, hs, _, _, hdig, _⟩ := toDigitsCore_value (n + 1) n [] (by omega)
  have : Nat.toDigits 10 n = s := by
    unfold Nat.toDigits; rw [hs]; simp
  rw [this]
  exact hdig

theorem all_ite {P : Char → Prop} {p : Prop} [Decidable p] {a b : Str}
    (ha : ∀ x ∈ a, P x) (hb : ∀ x ∈ b, P x) : ∀ x ∈ (if p then a else b), P x := by
  split <;> assumption

theorem all_append {P : Char → Prop} {a b : Str}
    (ha : ∀ x ∈ a, P x) (hb : ∀ x ∈ b, P x) : ∀ x ∈ a ++ b, P x := by
  intro x hx
  rcases List.mem_append.mp hx with h | h
  · exact ha x h
  · exact hb x h

theorem all_cons {P : Char → Prop} {a : Char} {b : Str}
    (ha : P a) (hb : ∀ x ∈ b, P x) : ∀ x ∈ a :: b, P x := by
  intro x hx
  rcases List.mem_cons.mp hx with h | h
  · subst h; exact ha
  · exact hb x h

theorem lua_number2str_no_nul (n : Int) : ∀ c ∈ lua_number2str n, c ≠ Char.ofNat 0 := by
  have hnil : ∀ x ∈ ([] : Str), x ≠ Char.ofNat 0 := by intro x hx; simp at hx
  have hsign : ∀ x ∈ (if n < 0 then ['-'] else ([] : Str)), x ≠ Char.ofNat 0 :=
    all_ite (all_cons (by decide) hnil) hnil
  have hdig : ∀ (m : Nat), ∀ x ∈ Nat.toDigits 10 m, x ≠ Char.ofNat 0 :=
    fun m x hx => isDigit_not_nul (toDigits_isDigit m x hx)
  have hmd : ∀ (m : Nat), ∀ x ∈ dropTrailingZeros (Nat.toDigits 10 m), x ≠ Char.ofNat 0 := by
    intro m x hx
    unfold dropTrailingZeros at hx
    have h1 := List.mem_reverse.mp hx
    have h2 := (List.dropWhile_sublist _).subset h1
    exact hdig m x (List.mem_reverse.mp h2)
  unfold lua_number2str
  simp only []
  refine all_ite (all_append hsign (hdig _)) ?_
  refine all_append (all_append (all_append (all_append hsign ?_) (all_ite hnil ?_)) ?_)
    (all_ite (all_cons (by decide) (hdig _)) (hdig _))
  · intro x hx; exact hmd _ x (List.mem_of_mem_take hx)
  · exact all_cons (by decide) (fun x hx => hmd _ x (List.mem_of_mem_drop hx))
  · exact all_cons (by decide) (all_cons (by decide) hnil)

/-- C11 as stated fails on a number: with `x = 5`, `string("x", "d")` returns `"5"`, the
rendering `lua_tolstring` gives the number, and leaves the slot converted to a string; it
does not return the default `"d"`. -/
theorem string_of_number_sample :
    string docScalars "x".data "d".data =
        Outcome.ok "5".data { docScalars with stack := [Value.string "5".data] } ∧
      string docScalars "x".data "d".data ≠
        Outcome.ok "d".data { docScalars with stack := [Value.string "5".data] } := by
  have h : string docScalars "x".data "d".data =
      Outcome.ok "5".data { docScalars with stack := [Value.string "5".data] } := rfl
  refine ⟨h, ?_⟩
  rw [h]
  intro hc
  injection hc with h1 _
  revert h1
  decide

/-- C11, amended: when the path `P` resolves to a found number `n`, `string(P, d)` returns
the string rendering of `n` (`"%.14g"`) whatever the default `d` is, and the slot holds
that string afterwards. -/
theorem string_of_number (L L1 : LuaState) (P d : Str) (n : Int) (rest : List Value)
    (hloc : LocateValue L P = Outcome.ok 0 L1)
    (htop : L1.stack = Value.number n :: rest) :
    string L P d =
      Outcome.ok (lua_number2str n)
        { L1 with stack := Value.string (lua_number2str n) :: rest } := by
  unfold string
  rw [hloc]
  simp [htop, lua_tolstring, c_str_eq_self (lua_number2str_no_nul n)]

theorem string_of_number_witness :
    string docScalars "x".data "d".data =
      Outcome.ok "5".data { docScalars with stack := [Value.string "5".data] } :=
  string_of_number docScalars { docScalars with stack := [Value.number 5] } "x".data "d".data
    5 [] rfl rfl

/-- The null pointer `lua_tolstring` returns for a boolean or a table makes `string` build
a `std::string` from `nullptr`. -/
theorem string_of_boolean_or_table :
    string docScalars "flag".data "d".data = Outcome.fault Fault.nullString ∧
      string docNested "a".data "d".data = Outcome.fault Fault.nullString :=
  ⟨rfl, rfl⟩

/-- C12 as stated fails: with `x = 5`, `ArrayLength("x")` is `-1`, not `0`, although the
path is found. -/
theorem arrayLength_of_number_sample :
    LocateValue docScalars "x".data =
        Outcome.ok 0 { docScalars with stack := [Value.number 5] } ∧
      ArrayLength (fun _ => 0) docScalars "x".data =
        Outcome.ok (-1) { docScalars with stack := [Value.number 5] } ∧
      ArrayLength (fun _ => 0) docScalars "x".data ≠
        Outcome.ok 0 { docScalars with stack := [Value.number 5] } := by
  have h : ArrayLength (fun _ => 0) docScalars "x".data =
      Outcome.ok (-1) { docScalars with stack := [Value.number 5] } := rfl
  refine ⟨rfl, h, ?_⟩
  rw [h]
  intro hc
  injection hc with h1 _
  revert h1
  decide

/-- C12, amended: when the path `P` resolves to a found value that is not a table,
`ArrayLength(P)` returns `-1`, the value it also returns when `P` is not found. -/
theorem arrayLength_of_non_table (objlen : Table → Nat) (L L1 : LuaState) (P : Str)
    (top : Value) (rest : List Value)
    (hloc : LocateValue L P = Outcome.ok 0 L1)
    (htop : L1.stack = top :: rest)
    (hnt : ∀ t, top ≠ Value.table t) :
    ArrayLength objlen L P = Outcome.ok (-1) L1 := by
  unfold ArrayLength
  rw [hloc]
  simp only [htop]
  cases top with
  | table t => exact absurd rfl (hnt t)
  | nil => simp
  | boolean b => simp
  | number n => simp
  | string s => simp
  | function f => simp

theorem arrayLength_of_non_table_witness :
    ArrayLength (fun _ => 0) docScalars "s".data =
      Outcome.ok (-1) { docScalars with stack := [Value.string "hello".data] } :=
  arrayLength_of_non_table (fun _ => 0) docScalars
    { docScalars with stack := [Value.string "hello".data] } "s".data
    (Value.string "hello".data) [] rfl rfl (by intro t h; cases h)

/-- C13: with `s = "hello"` and `x = 5`, `integerArray("s")` and `integerArray("x")` take
`lua_objlen` of the string (5) or of the number (1, after converting it in place) and call
`lua_rawgeti` on a slot that is not a table; only for a boolean is the result empty. -/
theorem integerArray_of_scalar :
    integerArray (fun _ => 0) (fun _ => 0) docScalars "s".data =
        Outcome.fault Fault.badIndex ∧
      integerArray (fun _ => 0) (fun _ => 0) docScalars "x".data =
        Outcome.fault Fault.badIndex ∧
      integerArray (fun _ => 0) (fun _ => 0) docScalars "flag".data =
        Outcome.ok [] { docScalars with stack := [] } :=
  ⟨rfl, rfl, rfl⟩

theorem firstIndex_none (p : Char → Bool) (s : Str) (h : ∀ c ∈ s, p c = false) (i : Nat) :
    firstIndex p s i = none := by
  have := firstIndex_append p s [] h i
  rw [List.append_nil] at this
  rw [this]
  rfl

theorem settingsLine_without_eq (m : Settings) (line : Str) (h : line.contains '=' = false) :
    settingsLine m line = Settings.set m (trim line whitespace) (trim line whitespace) := by
  have hf : find line '=' = none :=
    firstIndex_none _ line (fun c hc => by simpa using not_contains h c hc) 0
  unfold settingsLine
  simp only [hf, substr, sizeSucc, List.drop_zero]

/-- C14: a line without `=` is not skipped.  `find` returns `npos`, so the key is the whole
line, and `npos + 1` wraps to 0, so the value is the whole line too: the text
`"foo\n\n"` adds the entries `"foo" ↦ "foo"` and `"" ↦ ""` to the overlay. -/
theorem reload_line_without_eq :
    reloadSettings [("k".data, "v".data)] "foo\n\n".data =
        [("".data, "".data), ("foo".data, "foo".data), ("k".data, "v".data)] ∧
      reloadSettings [("foo".data, "1".data)] "foo\n".data = [("foo".data, "foo".data)] := by
  decide

theorem locateLoop_close_table (tmp cs : Str) (k : Nat) (L : LuaState) (t : Table)
    (rest : List Value) (hs : L.stack = Value.table t :: rest) (h1 : tmp ≠ [])
    (h2 : tmp.length < 128) :
    locateLoop (']' :: cs) tmp k true L =
      if (bracketValue t tmp).isNil then
        Outcome.ok (-1) { L with stack := bracketValue t tmp :: L.stack }
      else locateLoop cs [] (k + 1) true { L with stack := bracketValue t tmp :: L.stack } := by
  have h3 : ¬ 128 ≤ tmp.length := by omega
  obtain ⟨g, sl, st⟩ := L
  simp only at hs
  subst hs
  rw [locateLoop, if_pos (Or.inr (Or.inr rfl)), if_neg h3, if_neg h1]
  unfold bracketValue
  by_cases hd : isDigit (tmp.headD ' ') = true
  · have hd' : isDigit ((List.head? tmp).getD ' ') = true := by simpa using hd
    simp [hd']
  · have hd' : ¬ isDigit ((List.head? tmp).getD ' ') = true := by simpa using hd
    simp [hd']

/-- C15 as stated fails: with `a = { [1] = 10, ["1x"] = 20 }` the path `a[1x]` resolves to
the entry at the integer key 1 (the value 10), not to the field named `1x` (20). -/
theorem bracket_leading_digit_sample :
    LocateValue docMixed "a[1x]".data =
        Outcome.ok 0 { docMixed with stack := [Value.number 10, Value.table mixedTable] } ∧
      Table.get mixedTable (Key.str "1x".data) = Value.number 20 :=
  ⟨rfl, rfl⟩

theorem locateLoop_bracket_token (t : Str) (T : Table) (ht : isName t = true)
    (cs : Str) (k : Nat) (L : LuaState) (rest : List Value)
    (hs : L.stack = Value.table T :: rest) :
    locateLoop (t ++ ']' :: cs) [] k true L =
      if (bracketValue T t).isNil then
        Outcome.ok (-1) { L with stack := bracketValue T t :: L.stack }
      else locateLoop cs [] (k + 1) true { L with stack := bracketValue T t :: L.stack } := by
  rw [locateLoop_token t (isName_delim ht) _ [] k true L
      (by have := isName_length ht; simp; omega),
    List.nil_append,
    locateLoop_close_table t cs k L T rest hs (isName_ne_nil ht) (isName_length ht)]

/-- C15, amended: on a table `a`, the bracketed token `t` of the path `a[t]` is an integer
lookup at `atoi(t)` exactly when `t` starts with a decimal digit, and a named-field lookup
for `t` otherwise (`bracketValue`). -/
theorem bracket_token_lookup (L : LuaState) (a t : Str) (T : Table)
    (ha : isName a = true) (ht : isName t = true)
    (hg : Table.get L.globals (Key.str a) = Value.table T) :
    LocateValue L (bracketPath a t) =
      if (bracketValue T t).isNil then
        Outcome.ok (-1) { L with stack := bracketValue T t :: Value.table T :: L.stack }
      else
        Outcome.ok 0 { L with stack := bracketValue T t :: Value.table T :: L.stack } := by
  have hnul : c_str (bracketPath a t) = bracketPath a t := by
    apply c_str_eq_self
    intro c hc
    simp only [bracketPath, List.mem_append, List.mem_cons, List.not_mem_nil, or_false] at hc
    rcases hc with hc | hc | hc | hc
    · exact isName_nul ha c hc
    · subst hc; decide
    · exact isName_nul ht c hc
    · subst hc; decide
  have hbr : strchr (bracketPath a t) '[' = true := by
    simp [strchr, bracketPath]
  unfold LocateValue
  simp only [hnul, hbr, Bool.not_true, Bool.and_false, Bool.false_eq_true, if_false]
  unfold bracketPath
  rw [locateLoop_token a (isName_delim ha) _ [] 0 false L
      (by have := isName_length ha; simp; omega),
    List.nil_append,
    locateLoop_open_first a _ L (isName_ne_nil ha) (isName_length ha), hg]
  simp only [isNil_table, Bool.false_eq_true, if_false]
  rw [locateLoop_bracket_token t T ht [] 1 _ L.stack rfl]
  by_cases hv : (bracketValue T t).isNil = true
  · rw [if_pos hv, if_pos hv]
  · rw [if_neg hv, if_neg hv]
    rfl

theorem bracket_token_lookup_witness :
    LocateValue docMixed "a[1x]".data =
      Outcome.ok 0 { docMixed with stack := [Value.number 10, Value.table mixedTable] } :=
  bracket_token_lookup docMixed "a".data "1x".data mixedTable (by decide) (by decide) rfl

/-- C16: a leading empty token makes `k` non-zero, so the first non-empty token is looked up
in stack slot -1 and not among the globals.  With `a = { b = { c = 5 } }`: on an empty
stack `".a.b"` and `"..a"` index a slot that does not exist while `"a.b"` and `"a"` are
found; after the call `LocateValue("a")`, `".a.b"` looks `a` up in the table that call left
on the stack and reports not-found. -/
theorem leading_empty_token_skips_globals :
    LocateValue docNested ".a.b".data = Outcome.fault Fault.badIndex ∧
      LocateValue docNested "..a".data = Outcome.fault Fault.badIndex ∧
      LocateValue docNested "a.b".data =
        Outcome.ok 0
          { docNested with
            stack := Value.table [(Key.str "c".data, Value.number 5)] ::
              docNestedAfterA.stack } ∧
      LocateValue docNested "a".data = Outcome.ok 0 docNestedAfterA ∧
      LocateValue docNestedAfterA ".a.b".data =
        Outcome.ok (-1) { docNested with stack := Value.nil :: docNestedAfterA.stack } :=
  ⟨rfl, rfl, rfl, rfl, rfl⟩

/-- C18: a `[` that follows an empty token reaches `continue` before `in_table = true`, so
the digits of `a.[1]` are looked up as the field named `"1"`.  With `a = { 10, 20, 30 }`,
`"a.[1]"` is not found while `"a[1]"` resolves to 10. -/
theorem dot_bracket_is_named_lookup :
    LocateValue docArray "a.[1]".data =
        Outcome.ok (-1)
          { docArray with
            stack := [Value.nil, Value.table [(Key.int 1, Value.number 10),
              (Key.int 2, Value.number 20), (Key.int 3, Value.number 30)]] } ∧
      LocateValue docArray "a[1]".data =
        Outcome.ok 0
          { docArray with
            stack := [Value.number 10, Value.table [(Key.int 1, Value.number 10),
              (Key.int 2, Value.number 20), (Key.int 3, Value.number 30)]] } :=
  ⟨rfl, rfl⟩

/-- C19: `LocateValue` pushes every value it visits and nothing pops them.  With `x = 5`
and an empty stack, `integer("x", 0)` returns 5 and leaves the stack holding that 5; and
the outcome of `LocateValue(".b")` on `a = { b = { c = 5 } }` depends on the calls before
it: a fault on the empty stack, found (the table `a.b`) right after `LocateValue("a")`. -/
theorem accessor_leaves_stack_grown :
    docScalars.stack = [] ∧
      integer (fun _ => 0) docScalars "x".data 0 =
        Outcome.ok 5 { docScalars with stack := [Value.number 5] } ∧
      LocateValue docNested ".b".data = Outcome.fault Fault.badIndex ∧
      LocateValue docNested "a".data = Outcome.ok 0 docNestedAfterA ∧
      LocateValue docNestedAfterA ".b".data =
        Outcome.ok 0
          { docNested with
            stack := Value.table [(Key.str "c".data, Value.number 5)] ::
              docNestedAfterA.stack } :=
  ⟨rfl, rfl, rfl, rfl, rfl⟩

theorem locateLoop_cons_congr (x : Char) (cs cs' : Str)
    (h : ∀ tmp k it L, locateLoop cs tmp k it L = locateLoop cs' tmp k it L) :
    ∀ tmp k it L, locateLoop (x :: cs) tmp k it L = locateLoop (x :: cs') tmp k it L := by
  intro tmp k it L
  rw [locateLoop, locateLoop]
  simp only [h]

theorem locateLoop_counter : ∀ (cs tmp : Str) (it : Bool) (L : LuaState) (k k' : Nat),
    0 < k → 0 < k' → locateLoop cs tmp k it L = locateLoop cs tmp k' it L := by
  intro cs
  induction cs with
  | nil => intro tmp it L k k' _ _; simp only [locateLoop]
  | cons c cs ih =>
    intro tmp it L k k' hk hk'
    have e1 : ∀ tmp it L, locateLoop cs tmp k it L = locateLoop cs tmp k' it L :=
      fun tmp it L => ih tmp it L k k' hk hk'
    have e2 : ∀ tmp it L, locateLoop cs tmp (k + 1) it L = locateLoop cs tmp (k' + 1) it L :=
      fun tmp it L => ih tmp it L (k + 1) (k' + 1) (by omega) (by omega)
    have h0 : ¬ k = 0 := by omega
    have h0' : ¬ k' = 0 := by omega
    rw [locateLoop, locateLoop]
    simp only [e1, e2, h0, h0', if_false]

theorem locateLoop_dot_congr (cs cs' : Str) (k : Nat)
    (h : ∀ it L, locateLoop cs [] (k + 1) it L = locateLoop cs' [] (k + 1) it L) :
    ∀ tmp it L, locateLoop ('.' :: cs) tmp k it L = locateLoop ('.' :: cs') tmp k it L := by
  intro tmp it L
  rw [locateLoop, locateLoop]
  simp only [h, true_or, if_true]

theorem locateLoop_dot_dot (rest tmp : Str) (k : Nat) (it : Bool) (L : LuaState) :
    locateLoop ('.' :: '.' :: rest) tmp k it L = locateLoop ('.' :: rest) tmp k it L := by
  apply locateLoop_dot_congr
  intro it' L'
  rw [locateLoop_skip_dot]
  exact locateLoop_counter rest [] it' L' (k + 1 + 1) (k + 1) (by omega) (by omega)

theorem locateLoop_insert_dot (rest : Str) : ∀ (p tmp : Str) (k : Nat) (it : Bool)
    (L : LuaState),
    locateLoop (p ++ '.' :: '.' :: rest) tmp k it L =
      locateLoop (p ++ '.' :: rest) tmp k it L := by
  intro p
  induction p with
  | nil => intro tmp k it L; exact locateLoop_dot_dot rest tmp k it L
  | cons x p ih =>
    intro tmp k it L
    exact locateLoop_cons_congr x _ _ ih tmp k it L

theorem c_str_append_of_nul (a b : Str) (h : Char.ofNat 0 ∈ a) : c_str (a ++ b) = c_str a := by
  induction a with
  | nil => simp at h
  | cons x a ih =>
    unfold c_str at ih ⊢
    by_cases hx : x = Char.ofNat 0
    · subst hx
      simp [List.takeWhile]
    · have ha : Char.ofNat 0 ∈ a := by
        rcases List.mem_cons.mp h with h' | h'
        · exact absurd h'.symm hx
        · exact h'
      simp only [List.cons_append, List.takeWhile_cons, ne_eq, hx, not_false_eq_true,
        decide_True, if_true]
      rw [ih ha]

theorem c_str_append_of_no_nul (a b : Str) (h : Char.ofNat 0 ∉ a) :
    c_str (a ++ b) = a ++ c_str b := by
  induction a with
  | nil => rfl
  | cons x a ih =>
    unfold c_str at ih ⊢
    have hx : x ≠ Char.ofNat 0 := fun hc => h (by rw [hc]; exact List.mem_cons_self _ _)
    have ha : Char.ofNat 0 ∉ a := fun hc => h (List.mem_cons_of_mem _ hc)
    simp only [List.cons_append, List.takeWhile_cons, ne_eq, hx, not_false_eq_true,
      decide_True, if_true]
    rw [ih ha]

theorem c_str_dot (s : Str) : c_str ('.' :: s) = '.' :: c_str s := by
  unfold c_str
  rw [List.takeWhile_cons]
  have : decide ('.' ≠ Char.ofNat 0) = true := by decide
  rw [this]
  rfl

/-- C17: a doubled `.` is skipped as an empty token.  For every document, every stack and
all strings `p` and `rest`, `LocateValue` gives `p..rest` the same outcome, resolved value
and final state as `p.rest`; in particular `a..b` resolves as `a.b`. -/
theorem doubled_dot_collapses (L : LuaState) (p rest : Str) :
    LocateValue L (p ++ '.' :: '.' :: rest) = LocateValue L (p ++ '.' :: rest) := by
  by_cases h : Char.ofNat 0 ∈ p
  · unfold LocateValue
    rw [c_str_append_of_nul p _ h, c_str_append_of_nul p _ h]
  · unfold LocateValue
    rw [c_str_append_of_no_nul p _ h, c_str_append_of_no_nul p _ h, c_str_dot, c_str_dot]
    have h1 : strchr (p ++ '.' :: '.' :: c_str rest) '.' = true := by simp [strchr]
    have h2 : strchr (p ++ '.' :: c_str rest) '.' = true := by simp [strchr]
    simp only [h1, h2, Bool.not_true, Bool.false_and, Bool.false_eq_true, if_false]
    exact locateLoop_insert_dot (c_str rest) p [] 0 false L

/-- The instance of the doubled dot on `a = { b = { c = 5 } }`: `a..b` and `a.b` both
resolve to the table `a.b`. -/
theorem doubled_dot_sample :
    LocateValue docNested "a..b".data = LocateValue docNested "a.b".data ∧
      LocateValue docNested "a..b".data =
        Outcome.ok 0
          { docNested with
            stack := Value.table [(Key.str "c".data, Value.number 5)] ::
              docNestedAfterA.stack } :=
  ⟨rfl, rfl⟩

theorem strLt_irrefl (a : Str) : strLt a a = false := by
  induction a with
  | nil => rfl
  | cons x a ih => simp [strLt, ih]

theorem strLt_asymm : ∀ (a b : Str), strLt a b = true → strLt b a = false := by
  intro a
  induction a with
  | nil =>
    intro b h
    cases b with
    | nil => rfl
    | cons y b => rfl
  | cons x a ih =>
    intro b h
    cases b with
    | nil => simp [strLt] at h
    | cons y b =>
      simp only [strLt] at h ⊢
      by_cases h1 : x.toNat < y.toNat
      · have h2 : ¬ y.toNat < x.toNat := by omega
        simp [h1, h2]
      · by_cases h2 : y.toNat < x.toNat
        · simp [h1, h2] at h
        · simp only [h1, h2, if_false] at h ⊢
          exact ih b h

theorem strLt_trans : ∀ (a b c : Str), strLt a b = true → strLt b c = true →
    strLt a c = true := by
  intro a
  induction a with
  | nil =>
    intro b c h1 h2
    cases b with
    | nil => simp [strLt] at h1
    | cons y b =>
      cases c with
      | nil => simp [strLt] at h2
      | cons z c => rfl
  | cons x a ih =>
    intro b c h1 h2
    cases b with
    | nil => simp [strLt] at h1
    | cons y b =>
      cases c with
      | nil => simp [strLt] at h2
      | cons z c =>
        simp only [strLt] at h1 h2 ⊢
        by_cases hxy : x.toNat < y.toNat
        · by_cases hyz : y.toNat < z.toNat
          · have : x.toNat < z.toNat := by omega
            simp [this]
          · by_cases hzy : z.toNat < y.toNat
            · simp [hyz, hzy] at h2
            · have : x.toNat < z.toNat := by omega
              simp [this]
        · by_cases hyx : y.toNat < x.toNat
          · simp [hxy, hyx] at h1
          · simp only [hxy, hyx, if_false] at h1
            by_cases hyz : y.toNat < z.toNat
            · have : x.toNat < z.toNat := by omega
              simp [this]
            · by_cases hzy : z.toNat < y.toNat
              · simp [hyz, hzy] at h2
              · simp only [hyz, hzy, if_false] at h2
                have e1 : ¬ x.toNat < z.toNat := by omega
                have e2 : ¬ z.toNat < x.toNat := by omega
                simp only [e1, e2, if_false]
                exact ih b c h1 h2

theorem ordered_tail {e : Str × Str} {m : Settings} (h : Settings.Ordered (e :: m)) :
    Settings.Ordered m := by
  cases m with
  | nil => trivial
  | cons e2 m =>
    obtain ⟨k, v⟩ := e
    obtain ⟨k2, v2⟩ := e2
    exact h.2

theorem ordered_head_lt : ∀ (m : Settings) (e : Str × Str), Settings.Ordered (e :: m) →
    ∀ x ∈ m, strLt e.1 x.1 = true := by
  intro m
  induction m with
  | nil => intro e _ x hx; simp at hx
  | cons e2 m ih =>
    intro e h x hx
    obtain ⟨k, v⟩ := e
    obtain ⟨k2, v2⟩ := e2
    have h1 : strLt k k2 = true := h.1
    rcases List.mem_cons.mp hx with hx | hx
    · subst hx; exact h1
    · exact strLt_trans k k2 x.1 h1 (ih (k2, v2) h.2 x hx)

theorem set_append (m : Settings) (k v : Str) (h : ∀ x ∈ m, strLt x.1 k = true) :
    Settings.set m k v = m ++ [(k, v)] := by
  induction m with
  | nil => rfl
  | cons e m ih =>
    obtain ⟨k', v'⟩ := e
    have hlt : strLt k' k = true := h (k', v') (List.mem_cons_self _ _)
    have hne : ¬ k' = k := by
      intro hc
      subst hc
      rw [strLt_irrefl] at hlt
      exact absurd hlt (by decide)
    have hge : ¬ strLt k k' = true := by
      rw [strLt_asymm k' k hlt]; decide
    simp only [Settings.set, if_neg hne, if_neg hge, List.cons_append]
    rw [ih (fun x hx => h x (List.mem_cons_of_mem _ hx))]

theorem foldl_set_ordered : ∀ (M acc : Settings),
    (∀ x ∈ acc, ∀ y ∈ M, strLt x.1 y.1 = true) → Settings.Ordered M →
    M.foldl (fun a e => Settings.set a e.1 e.2) acc = acc ++ M := by
  intro M
  induction M with
  | nil => intro acc _ _; simp
  | cons e M ih =>
    intro acc hlt hord
    simp only [List.foldl_cons]
    rw [set_append acc e.1 e.2 (fun x hx => hlt x hx e (List.mem_cons_self _ _)),
      ih (acc ++ [(e.1, e.2)]) ?_ (ordered_tail hord)]
    · simp
    · intro x hx y hy
      rcases List.mem_append.mp hx with hx | hx
      · exact hlt x hx y (List.mem_cons_of_mem _ hy)
      · simp only [List.mem_singleton] at hx
        subst hx
        exact ordered_head_lt M e hord y hy

/-- C20: for an overlay map (keys strictly ascending, as `std::map` keeps them) in which no
key contains `=` and no key or value contains a newline or has leading or trailing
whitespace, re-parsing the text written by `Save` with the line parser of `Reload` into an
empty overlay yields exactly the map; values may contain `=`. -/
theorem save_reload_identity (M : Settings) (hord : Settings.Ordered M)
    (hplain : ∀ e ∈ M, isPlainEntry e = true) :
    reloadSettings [] (Save M) = M := by
  rw [reloadSettings_Save M [] hplain,
    foldl_set_ordered M [] (by intro x hx; simp at hx) hord]
  rfl

theorem save_reload_identity_witness :
    reloadSettings [] (Save [("name".data, "a = b".data), ("pid.p".data, "0.5".data)]) =
      [("name".data, "a = b".data), ("pid.p".data, "0.5".data)] :=
  save_reload_identity [("name".data, "a = b".data), ("pid.p".data, "0.5".data)]
    ⟨by decide, trivial⟩ (by decide)

end Config
